import Mathlib

/-!
Verification model of the clearskies_core wire-protocol engine
(`src/cs/protocolstate.hpp`, `src/cs/ibytestream.hpp`).

Bytes are modelled as `Nat` values (a `char` is represented by its unsigned
byte value 0..255; where the C++ semantics of a *signed* `char` matters, the
sign extension is modelled explicitly).  Byte buffers (`std::string`) are
`List Nat`.

The repository ships only the declarations of `find_message`, `find_payload`
and the `ProtocolState` member functions; their bodies live in a translation
unit that is not part of the source tree.  Those operations are therefore
modelled from the specification (each such definition carries a doc comment
starting with "Modelled from the spec:").  Everything that is defined inline
in the headers (`has_signature`, `has_payload`, `MsgRstate`, `PayLoadFound`,
the `ProtocolState` constructor and `Ibytestream::read`) is translated
directly from the source.
-/

/-- From `protocolstate.hpp`: `has_signature(c)` is true for the prefix tag
characters `$` (36) and `s` (115). -/
def has_signature (c : Nat) : Bool := c == 36 || c == 115

/-- From `protocolstate.hpp`: `has_payload(c)` is true for the prefix tag
characters `$` (36) and `!` (33). -/
def has_payload (c : Nat) : Bool := c == 36 || c == 33

/-- Modelled from the spec: the process-wide maximum declared signature size
`ProtocolState::s_msg_signature_max`.  Its default value is set in the missing
translation unit; a fixed representative value is used here. -/
def s_msg_signature_max : Nat := 512

/-- Modelled from the spec: the process-wide maximum declared message body size
`ProtocolState::s_msg_size_max`.  Its default value is set in the missing
translation unit; a fixed representative value (16 MiB) is used here. -/
def s_msg_size_max : Nat := 16777216

/-- Modelled from the spec: the process-wide maximum payload chunk size
`ProtocolState::s_payload_chunk_size_max`.  Its default value is set in the
missing translation unit; a fixed representative value is used here. -/
def s_payload_chunk_size_max : Nat := 65536

/-- From `protocolstate.hpp`: the result of one message-frame scan attempt.
The C++ spans `(encoded, encoded_sz)` and `(signature, signature_sz)` are
modelled as byte lists together with their declared sizes; the C++ field
`end` (position one past the frame) is named `end_pos` because `end` is a
Lean keyword, and `prefix` is named `prefix_c`.  Default field values mirror
the default constructor. -/
structure MsgRstate where
  prefix_c : Nat := 0
  msg_len : Nat := 0
  found : Bool := false
  garbage : Bool := false
  too_big : Bool := false
  encoded : List Nat := []
  encoded_sz : Nat := 0
  signature : List Nat := []
  signature_sz : Nat := 0
  end_pos : Nat := 0
deriving DecidableEq, Repr

/-- From `protocolstate.hpp`: `MsgRstate::payload()` returns
`has_payload(prefix)`. -/
def MsgRstate.payload (m : MsgRstate) : Bool := has_payload m.prefix_c

/-- From `protocolstate.hpp`: `MsgRstate::has_signature()` returns
`signature_sz != 0`. -/
def MsgRstate.has_signature (m : MsgRstate) : Bool := m.signature_sz != 0

/-- Big-endian value of four bytes. -/
def be4 (a b c d : Nat) : Nat := ((a * 256 + b) * 256 + c) * 256 + d

/-- Big-endian 4-byte encoding of `n` (mod 2^32). -/
def be4enc (n : Nat) : List Nat :=
  [n / 16777216 % 256, n / 65536 % 256, n / 256 % 256, n % 256]

/-- Reads a 4-byte big-endian length from the head of a buffer, returning the
value and the remainder, or `none` if fewer than 4 bytes are present. -/
def readLen4 : List Nat → Option (Nat × List Nat)
  | a :: b :: c :: d :: rest => some (be4 a b c d, rest)
  | _ => none

/-- Modelled from the spec: `find_message(buff)` (declaration only in
`protocolstate.hpp`; the body is in the missing translation unit).  Grammar
per spec section 4.2: one prefix tag byte in `{'!', 's', '$'}`; if the tag
implies a signature, a declared signature length followed by that many
signature bytes; then a declared message length followed by that many encoded
message bytes.  The spec leaves the byte-level punctuation of the length
headers open (section 9) as long as encoder and scanner agree; this model
fixes them as 4-byte big-endian integers.  A declared length above its
configured maximum yields `too_big` and `garbage`; an unrecognized tag byte
yields `garbage`; insufficient bytes yield `found = false`. -/
def find_message (buff : List Nat) : MsgRstate :=
  match buff with
  | [] => {}
  | p :: rest =>
    if has_signature p then
      match readLen4 rest with
      | none => {}
      | some (sl, r2) =>
        if s_msg_signature_max < sl then { garbage := true, too_big := true }
        else if r2.length < sl then {}
        else
          match readLen4 (r2.drop sl) with
          | none => {}
          | some (ml, r4) =>
            if s_msg_size_max < ml then { garbage := true, too_big := true }
            else if r4.length < ml then {}
            else { prefix_c := p, msg_len := ml, found := true,
                   encoded := r4.take ml, encoded_sz := ml,
                   signature := r2.take sl, signature_sz := sl,
                   end_pos := 9 + sl + ml }
    else if p = 33 then
      match readLen4 rest with
      | none => {}
      | some (ml, r4) =>
        if s_msg_size_max < ml then { garbage := true, too_big := true }
        else if r4.length < ml then {}
        else { prefix_c := p, msg_len := ml, found := true,
               encoded := r4.take ml, encoded_sz := ml, end_pos := 5 + ml }
    else { garbage := true }

/-- Result of scanning a decimal payload-chunk length header. -/
inductive HeaderScan where
  | incomplete : HeaderScan
  | bad : HeaderScan
  | ok : Nat → Nat → HeaderScan
deriving DecidableEq, Repr

/-- Scans a decimal ASCII length header terminated by a newline (byte 10).
`acc` is the value of the digits consumed so far and `nd` their count.
Returns `incomplete` if the buffer ends before the newline, `bad` if a
non-digit byte appears before the newline or the header is empty, and
`ok size headerLen` (header length including the newline) on success. -/
def scanDecHeader : List Nat → Nat → Nat → HeaderScan
  | [], _, _ => .incomplete
  | b :: t, acc, nd =>
    if b = 10 then (if nd = 0 then .bad else .ok acc (nd + 1))
    else if 48 ≤ b ∧ b ≤ 57 then scanDecHeader t (10 * acc + (b - 48)) (nd + 1)
    else .bad

/-- From `protocolstate.hpp`: the result of one payload-chunk scan attempt.
Default field values mirror the default constructor. -/
structure PayLoadFound where
  found : Bool := false
  garbage : Bool := false
  too_big : Bool := false
  size_plus_newline_sz : Nat := 0
  data_sz : Nat := 0
deriving DecidableEq, Repr

/-- From `protocolstate.hpp`: `PayLoadFound::reset()` clears `found`,
`garbage`, `size_plus_newline_sz` and `data_sz` (and does not touch
`too_big`). -/
def PayLoadFound.reset (p : PayLoadFound) : PayLoadFound :=
  { p with found := false, garbage := false, size_plus_newline_sz := 0, data_sz := 0 }

/-- From `protocolstate.hpp`: `PayLoadFound::error()` returns
`garbage || too_big`. -/
def PayLoadFound.error (p : PayLoadFound) : Bool := p.garbage || p.too_big

/-- From `protocolstate.hpp`: `PayLoadFound::total_size()` returns
`size_plus_newline_sz + data_sz`. -/
def PayLoadFound.total_size (p : PayLoadFound) : Nat :=
  p.size_plus_newline_sz + p.data_sz

/-- Modelled from the spec: `find_payload(buff)` (declaration only in
`protocolstate.hpp`; the body is in the missing translation unit).  Per spec
section 4.3: a decimal length header terminated by a newline, followed by
that many raw bytes.  A malformed header is `garbage`; a declared size above
`s_payload_chunk_size_max` is `too_big` and `garbage`; insufficient bytes
yield `found = false`; a complete chunk reports `size_plus_newline_sz` and
`data_sz`, a `data_sz = 0` result being the valid end sentinel. -/
def find_payload (buff : List Nat) : PayLoadFound :=
  match scanDecHeader buff 0 0 with
  | .incomplete => {}
  | .bad => { garbage := true }
  | .ok sz hlen =>
    if s_payload_chunk_size_max < sz then { garbage := true, too_big := true }
    else if buff.length < hlen + sz then {}
    else { found := true, size_plus_newline_sz := hlen, data_sz := sz }

/-- Folds ASCII digits onto an accumulator, matching what `scanDecHeader`
computes while consuming digit bytes. -/
def digitsVal (acc : Nat) (ds : List Nat) : Nat :=
  ds.foldl (fun a d => 10 * a + (d - 48)) acc

/-- Decimal ASCII digits of `n` accumulated in front of `tail`
(most significant digit first). -/
def decDigitsAux : Nat → List Nat → List Nat
  | 0, tail => tail
  | n + 1, tail => decDigitsAux ((n + 1) / 10) (((n + 1) % 10 + 48) :: tail)
decreasing_by exact Nat.div_lt_self (Nat.succ_pos n) (by omega)

/-- Decimal ASCII representation of `n` (at least one digit). -/
def decDigits (n : Nat) : List Nat := if n = 0 then [48] else decDigitsAux n []

/-- Modelled from the spec: the byte image of an application message as the
core sees it (spec sections 1 and 4.4).  The message codec is opaque to the
core, so a message is its prefix tag byte, its (possibly empty) signature
byte span and its opaque encoded body byte span. -/
structure Message where
  tag : Nat
  signature : List Nat
  encoded : List Nat
deriving DecidableEq, Repr

/-- Modelled from the spec: the bytes `ProtocolState::send_message` produces
for a message — prefix tag, then (iff the tag implies a signature) the
4-byte big-endian signature length and the signature bytes, then the 4-byte
big-endian body length and the encoded body, matching `find_message`'s
grammar in both directions (spec sections 4.2, 4.4 and 9). -/
def encode_message (m : Message) : List Nat :=
  if has_signature m.tag then
    m.tag :: (be4enc m.signature.length ++ m.signature ++ be4enc m.encoded.length ++ m.encoded)
  else
    m.tag :: (be4enc m.encoded.length ++ m.encoded)

/-- Modelled from the spec: the bytes `ProtocolState::send_payload_chunk`
produces for a chunk — decimal ASCII length, a newline, then the raw bytes;
the empty chunk encodes as the length-0 sentinel `0\n` alone (spec section
4.4). -/
def encode_payload_chunk (data : List Nat) : List Nat :=
  decDigits data.length ++ 10 :: data

/-- Invocations of the abstract handler interface of `ProtocolState`
(`handle_message`, `handle_payload`, `handle_payload_end`,
`handle_msg_garbage`, `handle_pl_garbage`), recorded with their arguments. -/
inductive Event where
  | msg : Nat → List Nat → List Nat → Event
  | payload : List Nat → Event
  | payload_end : Event
  | msg_garbage : List Nat → Event
  | pl_garbage : List Nat → Event
deriving DecidableEq, Repr

/-- True for the three dispatch handlers `handle_message`, `handle_payload`
and `handle_payload_end`. -/
def Event.isDispatch : Event → Bool
  | .msg _ _ _ => true
  | .payload _ => true
  | .payload_end => true
  | _ => false

/-- True only for `handle_message` invocations. -/
def Event.isMsg : Event → Bool
  | .msg _ _ _ => true
  | _ => false

/-- The subsequence of dispatch-handler invocations of an event trace. -/
def dispatches (evs : List Event) : List Event := evs.filter Event.isDispatch

/-- The state of a `ProtocolState` instance: the input accumulation buffer,
the output write queue, the payload-tracking flags, the mode flag
`m_read_payload` and the write-in-flight flag, as declared in
`protocolstate.hpp`. -/
structure ProtocolState where
  m_input_buff : List Nat
  m_output_buff : List (List Nat)
  m_last_has_payload : Bool
  m_payload_ended : Bool
  m_read_payload : Bool
  m_write_in_progress : Bool
deriving DecidableEq, Repr

/-- From `protocolstate.hpp`: the member initializers of the `ProtocolState`
constructor — empty buffers, `m_last_has_payload = false`,
`m_payload_ended = true`, `m_read_payload = false`,
`m_write_in_progress = false`. -/
def initialState : ProtocolState :=
  { m_input_buff := [], m_output_buff := [], m_last_has_payload := false,
    m_payload_ended := true, m_read_payload := false, m_write_in_progress := false }

/-- Modelled from the spec: the state after consuming a complete payload data
chunk from the front of the input buffer (spec section 4.4, `data_sz > 0`
case: drop the consumed prefix and stay in `ReadingPayload`). -/
def consumeData (st : ProtocolState) : ProtocolState :=
  let pl := find_payload st.m_input_buff
  { st with m_input_buff := st.m_input_buff.drop (pl.size_plus_newline_sz + pl.data_sz) }

/-- Modelled from the spec: the state after consuming the payload-end
sentinel (spec section 4.4, `data_sz == 0` case: drop the consumed prefix,
record that the payload ended and return to message reading). -/
def consumeSentinel (st : ProtocolState) : ProtocolState :=
  let pl := find_payload st.m_input_buff
  { st with
      m_input_buff := st.m_input_buff.drop pl.size_plus_newline_sz,
      m_read_payload := false, m_payload_ended := true }

/-- Modelled from the spec: the state after consuming a complete message
frame (spec section 4.4: drop bytes up to `end`; if the dispatched message's
prefix implies a payload, switch to `ReadingPayload` and record that its
payload has not ended yet). -/
def consumeMessage (st : ProtocolState) : ProtocolState :=
  let mr := find_message st.m_input_buff
  { st with
      m_input_buff := st.m_input_buff.drop mr.end_pos,
      m_read_payload := has_payload mr.prefix_c,
      m_last_has_payload := has_payload mr.prefix_c,
      m_payload_ended := !has_payload mr.prefix_c }

/-- Modelled from the spec: the data span of a complete payload chunk at the
front of the input buffer — the bytes handed to `handle_payload` (spec
section 4.4). -/
def payloadSpan (st : ProtocolState) : List Nat :=
  let pl := find_payload st.m_input_buff
  (st.m_input_buff.drop pl.size_plus_newline_sz).take pl.data_sz

/-- Modelled from the spec: the processing loop of `ProtocolState::input`
(spec section 4.4), with an explicit iteration bound `n`.  While progress is
possible it scans the accumulated buffer in the current mode; garbage stops
the loop after invoking the garbage handler; an incomplete frame stops the
loop; a complete frame or chunk is consumed and dispatched and the loop
re-enters.  Every productive iteration consumes at least one byte, so any
bound of at least the buffer length yields the loop's fixpoint
(`processN_congr` below proves the bound irrelevant). -/
def processN : Nat → ProtocolState → ProtocolState × List Event
  | 0, st => (st, [])
  | n + 1, st =>
    if st.m_read_payload then
      if (find_payload st.m_input_buff).garbage then
        (st, [Event.pl_garbage st.m_input_buff])
      else if (find_payload st.m_input_buff).found then
        if (find_payload st.m_input_buff).data_sz = 0 then
          ((processN n (consumeSentinel st)).1,
            Event.payload_end :: (processN n (consumeSentinel st)).2)
        else
          ((processN n (consumeData st)).1,
            Event.payload (payloadSpan st) :: (processN n (consumeData st)).2)
      else (st, [])
    else
      if (find_message st.m_input_buff).garbage then
        (st, [Event.msg_garbage st.m_input_buff])
      else if (find_message st.m_input_buff).found then
        ((processN n (consumeMessage st)).1,
          Event.msg (find_message st.m_input_buff).prefix_c
              (find_message st.m_input_buff).signature
              (find_message st.m_input_buff).encoded ::
            (processN n (consumeMessage st)).2)
      else (st, [])

/-- Runs the processing loop to its fixpoint (the buffer length bounds the
number of productive iterations). -/
def process (st : ProtocolState) : ProtocolState × List Event :=
  processN st.m_input_buff.length st

/-- Modelled from the spec: `ProtocolState::input` — append the received
bytes to the input accumulation buffer, then process it (spec section 4.4).
Returns the new state and the handler invocations in order. -/
def input (st : ProtocolState) (data : List Nat) : ProtocolState × List Event :=
  process { st with m_input_buff := st.m_input_buff ++ data }

/-- Feeds a list of byte fragments through successive `input` calls,
concatenating the handler invocation traces. -/
def runInputs : ProtocolState → List (List Nat) → ProtocolState × List Event
  | st, [] => (st, [])
  | st, p :: ps =>
    ((runInputs (input st p).1 ps).1, (input st p).2 ++ (runInputs (input st p).1 ps).2)

/-- One step of the mode history of spec section 3: dispatching a message
makes the mode `ReadingPayload` exactly when its prefix bears a payload; the
payload-end sentinel returns it to `ReadingMessage`; other handler
invocations leave it unchanged. -/
def modeStep : Bool → Event → Bool
  | _, .msg p _ _ => has_payload p
  | _, .payload_end => false
  | m, _ => m

/-- Whether, after the given handler-invocation history, a message with a
payload-bearing prefix has been dispatched whose payload-end sentinel has not
yet been seen (starting from construction, where no message has been
dispatched). -/
def modeAfter (evs : List Event) : Bool := evs.foldl modeStep false

/-- Invocations of the transport write callback (`m_do_write`), the
completion confirmations accepted by `on_write_finished`, and
`handle_empty_output_buff` invocations. -/
inductive OutEvent where
  | write : List Nat → OutEvent
  | wrote : OutEvent
  | empty_buff : OutEvent
deriving DecidableEq, Repr

/-- Modelled from the spec: `ProtocolState::write_next_buff` (spec section
4.4) — if the output queue is empty, invoke `handle_empty_output_buff`; else
if no write is in flight, hand the front buffer (without popping it) to the
write callback and set `m_write_in_progress`; else do nothing. -/
def write_next_buff (st : ProtocolState) : ProtocolState × List OutEvent :=
  match st.m_output_buff with
  | [] => (st, [OutEvent.empty_buff])
  | b :: _ =>
    if st.m_write_in_progress then (st, [])
    else ({ st with m_write_in_progress := true }, [OutEvent.write b])

/-- Modelled from the spec: `ProtocolState::on_write_finished` (spec section
4.4) — pop the completed buffer from the front of the queue, clear
`m_write_in_progress` and call `write_next_buff` to continue draining.
Calling it with no write in flight is a contract violation (spec section 8);
the violating call is modelled as rejected (no state change, no events). -/
def on_write_finished (st : ProtocolState) : ProtocolState × List OutEvent :=
  if st.m_write_in_progress then
    let st' : ProtocolState :=
      { st with m_output_buff := st.m_output_buff.tail, m_write_in_progress := false }
    ((write_next_buff st').1, OutEvent.wrote :: (write_next_buff st').2)
  else (st, [])

/-- Modelled from the spec: `ProtocolState::send_message` — encode the
message per the frame grammar and append the bytes at the back of the output
write queue (spec sections 3 and 4.4). -/
def ProtocolState.send_message (st : ProtocolState) (m : Message) : ProtocolState :=
  { st with m_output_buff := st.m_output_buff ++ [encode_message m] }

/-- Modelled from the spec: `ProtocolState::send_payload_chunk` — encode the
chunk as a decimal length header, newline and raw bytes, and append the bytes
at the back of the output write queue (spec sections 3 and 4.4). -/
def ProtocolState.send_payload_chunk (st : ProtocolState) (data : List Nat) : ProtocolState :=
  { st with m_output_buff := st.m_output_buff ++ [encode_payload_chunk data] }

/-- The public operations of a `ProtocolState`, used to enumerate all states
reachable from construction. -/
inductive OutAct where
  | inp : List Nat → OutAct
  | send_msg : Message → OutAct
  | send_chunk : List Nat → OutAct
  | write_next : OutAct
  | finished : OutAct
deriving DecidableEq, Repr

/-- One public operation applied to a `ProtocolState`, with the transport
events it triggers. -/
def outStep (st : ProtocolState) : OutAct → ProtocolState × List OutEvent
  | .inp d => ((input st d).1, [])
  | .send_msg m => (st.send_message m, [])
  | .send_chunk d => (st.send_payload_chunk d, [])
  | .write_next => write_next_buff st
  | .finished => on_write_finished st

/-- Runs a sequence of public operations from a state, concatenating the
transport event traces. -/
def runOut : ProtocolState → List OutAct → ProtocolState × List OutEvent
  | st, [] => (st, [])
  | st, a :: rest =>
    ((runOut (outStep st a).1 rest).1, (outStep st a).2 ++ (runOut (outStep st a).1 rest).2)

/-- The buffers handed to the transport write callback, in order. -/
def writesOf : List OutEvent → List (List Nat)
  | [] => []
  | .write b :: t => b :: writesOf t
  | _ :: t => writesOf t

/-- The buffers enqueued by `send_message` / `send_payload_chunk` operations,
in order. -/
def sendsOf : List OutAct → List (List Nat)
  | [] => []
  | .send_msg m :: t => encode_message m :: sendsOf t
  | .send_chunk d :: t => encode_payload_chunk d :: sendsOf t
  | _ :: t => sendsOf t

/-- Checks the single-writer discipline of a transport event trace: starting
with `w` buffers in flight (`false` = none, `true` = one), a write may only
start when none is in flight and a completion may only be accepted when one
is; returns the final in-flight state, or `none` on a violation. -/
def altCheck : List OutEvent → Bool → Option Bool
  | [], w => some w
  | .write _ :: t, false => altCheck t true
  | .wrote :: t, true => altCheck t false
  | .empty_buff :: t, w => altCheck t w
  | _, _ => none

/-- The buffers still owed to the transport: the whole queue, minus the front
buffer when it is already in flight. -/
def pendingOf (st : ProtocolState) : List (List Nat) :=
  if st.m_write_in_progress then st.m_output_buff.tail else st.m_output_buff

/-- From `ibytestream.hpp`: an `Ibytestream` is a cursor `m_next` over the
byte range `[begin, end)`; the range is modelled as the byte list `m_data`
(so `m_end` is `m_data.length`) and the cursor as an offset into it. -/
structure Ibytestream where
  m_data : List Nat
  m_next : Nat
deriving DecidableEq, Repr

/-- From `ibytestream.hpp`: the value `static_cast<T>(*m_next)` of a byte
read through a signed `char` (the project's x86 target) and widened to the
`w`-bit unsigned integral type `T`: byte values 128..255 are negative as
`char` and sign-extend modulo `2 ^ w`. -/
def csCast (w b : Nat) : Nat := if b < 128 then b else (2 ^ w - 256 + b) % 2 ^ w

/-- From `ibytestream.hpp`: the accumulation loop of `Ibytestream::read` —
for each byte, in order, `result |= static_cast<T>(*m_next++) << (8 * i)`
with `i` counting down from `sizeof(T) - 1`, all arithmetic in the `w`-bit
unsigned type `T`. -/
def readAccum (w : Nat) : List Nat → Nat → Nat
  | [], acc => acc
  | b :: t, acc => readAccum w t (Nat.lor acc (csCast w b <<< (8 * t.length) % 2 ^ w))

/-- From `ibytestream.hpp`: `Ibytestream::read<T>()` for an unsigned integral
`T` of `n` bytes — runs the accumulation loop over the next `n` bytes and
advances the cursor by `n`.  Precondition (the C++ `assert`): at least `n`
bytes remain before the end. -/
def Ibytestream.read (s : Ibytestream) (n : Nat) : Nat × Ibytestream :=
  (readAccum (8 * n) ((s.m_data.drop s.m_next).take n) 0, { s with m_next := s.m_next + n })

/-- The unsigned integer obtained by interpreting a byte list in big-endian
order. -/
def beValue (bs : List Nat) : Nat := bs.foldl (fun a b => 256 * a + b) 0

/-- A `MsgRstate` value whose prefix tag implies a signature while its
`signature_sz` is zero (all other fields as default-constructed). -/
def mrstateEx : MsgRstate := { prefix_c := 36 }

/-- A `PayLoadFound` value with `too_big` set (as `find_payload` produces for
an oversized declared chunk size, after which `reset()` may be called). -/
def plfEx : PayLoadFound :=
  { found := false, garbage := true, too_big := true, size_plus_newline_sz := 7, data_sz := 3 }

/-- An example `ProtocolState` with one enqueued output buffer and no write
in flight. -/
def psEx : ProtocolState := { initialState with m_output_buff := [[7]] }

/-- An example signed-payload message. -/
def msgEx : Message := { tag := 36, signature := [1, 2], encoded := [3, 4, 5] }

/-- The input buffers whose message frame declares a body length exceeding
`s_msg_size_max`: a recognized prefix tag, a complete (and in-bound)
signature section when the tag implies one, and then a declared body length
above the maximum. -/
def declares_too_big (buff : List Nat) : Prop :=
  (∃ a b c d rest,
    buff = 33 :: a :: b :: c :: d :: rest ∧ s_msg_size_max < be4 a b c d) ∨
  (∃ p a b c d sig e f g h4 rest, (p = 115 ∨ p = 36) ∧
    buff = p :: a :: b :: c :: d :: (sig ++ e :: f :: g :: h4 :: rest) ∧
    sig.length = be4 a b c d ∧ be4 a b c d ≤ s_msg_signature_max ∧
    s_msg_size_max < be4 e f g h4)

theorem be4_be4enc (n : Nat) (h : n < 4294967296) :
    be4 (n / 16777216 % 256) (n / 65536 % 256) (n / 256 % 256) (n % 256) = n := by
  simp only [be4]
  omega

/-- C10: `PayLoadFound::reset()` clears `found`, `garbage`,
`size_plus_newline_sz` and `data_sz` but leaves `too_big` unchanged, so a
value with `too_big = true` still satisfies `error()` after `reset()`. -/
theorem payload_reset_keeps_too_big (pl : PayLoadFound) (h : pl.too_big = true) :
    pl.reset.found = false ∧ pl.reset.garbage = false ∧
    pl.reset.size_plus_newline_sz = 0 ∧ pl.reset.data_sz = 0 ∧
    pl.reset.too_big = pl.too_big ∧ pl.reset.error = true := by
  simp [PayLoadFound.reset, PayLoadFound.error, h]

theorem payload_reset_keeps_too_big_witness :
    plfEx.too_big = true ∧
    (plfEx.reset.found = false ∧ plfEx.reset.garbage = false ∧
      plfEx.reset.size_plus_newline_sz = 0 ∧ plfEx.reset.data_sz = 0 ∧
      plfEx.reset.too_big = plfEx.too_big ∧ plfEx.reset.error = true) :=
  ⟨by decide, payload_reset_keeps_too_big plfEx (by decide)⟩

/-- C9 counterexample: `MsgRstate::has_signature()` reports `signature_sz !=
0`, which disagrees with `has_signature(prefix)` at the concrete `MsgRstate`
value with prefix `$` (36) and `signature_sz = 0`. -/
theorem msgrstate_has_signature_counterexample :
    MsgRstate.has_signature mrstateEx = false ∧ has_signature mrstateEx.prefix_c = true := by
  decide

/-- C8 (code evaluation at the failing input): on the project's signed-char
target, `Ibytestream::read<uint16_t>()` over the bytes `0x00 0xFF` returns
`0xFFFF` — the byte `0xFF` is sign-extended by `static_cast<T>` before the
shift — although the big-endian interpretation of those two bytes is
`0x00FF`; the cursor does advance by `sizeof(T)`. -/
theorem ibytestream_read_sign_extends :
    (Ibytestream.read { m_data := [0, 255], m_next := 0 } 2).1 = 65535 ∧
    (Ibytestream.read { m_data := [0, 255], m_next := 0 } 2).2.m_next = 2 ∧
    beValue [0, 255] = 255 ∧ (65535 : Nat) ≠ 255 := by
  decide

/-- C7: `write_next_buff()` called with no write in flight and a non-empty
output queue hands exactly the front buffer of the queue to the registered
write callback and sets `m_write_in_progress`; called with an empty output
queue it invokes `handle_empty_output_buff()` and hands nothing to the write
callback. -/
theorem write_next_buff_spec (st : ProtocolState) (b : List Nat) (q : List (List Nat)) :
    (st.m_write_in_progress = false → st.m_output_buff = b :: q →
      write_next_buff st = ({ st with m_write_in_progress := true }, [OutEvent.write b])) ∧
    (st.m_output_buff = [] → write_next_buff st = (st, [OutEvent.empty_buff])) := by
  constructor
  · intro hw hq
    simp [write_next_buff, hq, hw]
  · intro hq
    simp [write_next_buff, hq]

theorem write_next_buff_spec_witness :
    write_next_buff psEx = ({ psEx with m_write_in_progress := true }, [OutEvent.write [7]]) ∧
    write_next_buff initialState = (initialState, [OutEvent.empty_buff]) :=
  ⟨(write_next_buff_spec psEx [7] []).1 rfl rfl, (write_next_buff_spec initialState [7] []).2 rfl⟩

theorem scanDecHeader_ok_pos (u : List Nat) :
    ∀ acc nd sz hlen, scanDecHeader u acc nd = .ok sz hlen → nd < hlen ∧ hlen ≤ nd + u.length := by
  induction u with
  | nil =>
    intro acc nd sz hlen h
    simp [scanDecHeader] at h
  | cons b t ih =>
    intro acc nd sz hlen h
    simp only [scanDecHeader] at h
    by_cases hb : b = 10
    · rw [if_pos hb] at h
      by_cases hnd : nd = 0
      · rw [if_pos hnd] at h
        cases h
      · rw [if_neg hnd] at h
        cases h
        simp only [List.length_cons]
        omega
    · rw [if_neg hb] at h
      by_cases hd : 48 ≤ b ∧ b ≤ 57
      · rw [if_pos hd] at h
        have := ih _ _ _ _ h
        simp only [List.length_cons]
        omega
      · rw [if_neg hd] at h
        cases h

theorem scanDecHeader_ext (u ext : List Nat) :
    ∀ acc nd, scanDecHeader u acc nd ≠ .incomplete →
      scanDecHeader (u ++ ext) acc nd = scanDecHeader u acc nd := by
  induction u with
  | nil =>
    intro acc nd h
    simp [scanDecHeader] at h
  | cons b t ih =>
    intro acc nd h
    simp only [List.cons_append, scanDecHeader] at h ⊢
    by_cases hb : b = 10
    · simp only [if_pos hb]
    · simp only [if_neg hb] at h ⊢
      by_cases hd : 48 ≤ b ∧ b ≤ 57
      · simp only [if_pos hd] at h ⊢
        exact ih _ _ h
      · simp only [if_neg hd]

theorem scanDecHeader_digits (ds : List Nat) :
    ∀ t acc nd, (∀ d ∈ ds, 48 ≤ d ∧ d ≤ 57) → 0 < nd + ds.length →
      scanDecHeader (ds ++ 10 :: t) acc nd = .ok (digitsVal acc ds) (nd + ds.length + 1) := by
  induction ds with
  | nil =>
    intro t acc nd _ hpos
    simp only [List.length_nil, Nat.add_zero] at hpos
    simp [scanDecHeader, digitsVal, Nat.pos_iff_ne_zero.mp hpos]
  | cons d ds ih =>
    intro t acc nd hds hpos
    have hd := hds d (by simp)
    simp only [List.cons_append, scanDecHeader, List.append_eq]
    rw [if_neg (by omega), if_pos hd]
    rw [ih t (10 * acc + (d - 48)) (nd + 1) (fun x hx => hds x (by simp [hx])) (by omega)]
    simp only [digitsVal, List.foldl_cons, List.length_cons]
    congr 1
    omega

theorem find_payload_found_inv (buff : List Nat) (h : (find_payload buff).found = true) :
    ∃ sz hlen, scanDecHeader buff 0 0 = .ok sz hlen ∧ sz ≤ s_payload_chunk_size_max ∧
      hlen + sz ≤ buff.length ∧ 0 < hlen ∧
      find_payload buff = { found := true, size_plus_newline_sz := hlen, data_sz := sz } := by
  unfold find_payload at h
  split at h
  · simp at h
  · simp at h
  next sz hlen hscan =>
    split at h
    next htb => simp at h
    next htb =>
      split at h
      next hins => simp at h
      next hins =>
        refine ⟨sz, hlen, hscan, by omega, by omega,
          (scanDecHeader_ok_pos buff 0 0 sz hlen hscan).1, ?_⟩
        unfold find_payload
        rw [hscan]
        simp only []
        rw [if_neg htb, if_neg hins]

theorem find_payload_garbage_inv (buff : List Nat) (h : (find_payload buff).garbage = true) :
    (scanDecHeader buff 0 0 = .bad ∧ find_payload buff = { garbage := true }) ∨
    (∃ sz hlen, scanDecHeader buff 0 0 = .ok sz hlen ∧ s_payload_chunk_size_max < sz ∧
      find_payload buff = { garbage := true, too_big := true }) := by
  unfold find_payload at h
  split at h
  · simp at h
  next hscan =>
    refine Or.inl ⟨hscan, ?_⟩
    unfold find_payload
    rw [hscan]
  next sz hlen hscan =>
    split at h
    next htb =>
      refine Or.inr ⟨sz, hlen, hscan, htb, ?_⟩
      unfold find_payload
      rw [hscan]
      simp only []
      rw [if_pos htb]
    next htb =>
      split at h
      next hins => simp at h
      next hins => simp at h

theorem find_payload_ext (buff ext : List Nat)
    (h : (find_payload buff).found = true ∨ (find_payload buff).garbage = true) :
    find_payload (buff ++ ext) = find_payload buff := by
  rcases h with h | h
  · obtain ⟨sz, hlen, hscan, hsz, hle, hpos, heq⟩ := find_payload_found_inv buff h
    rw [heq]
    unfold find_payload
    rw [scanDecHeader_ext buff ext 0 0 (by simp [hscan]), hscan]
    simp only []
    rw [if_neg (by omega), if_neg (by simp only [List.length_append]; omega)]
  · rcases find_payload_garbage_inv buff h with ⟨hscan, heq⟩ | ⟨sz, hlen, hscan, hsz, heq⟩
    · rw [heq]
      unfold find_payload
      rw [scanDecHeader_ext buff ext 0 0 (by simp [hscan]), hscan]
    · rw [heq]
      unfold find_payload
      rw [scanDecHeader_ext buff ext 0 0 (by simp [hscan]), hscan]
      simp only []
      rw [if_pos hsz]

theorem decDigitsAux_length (n : Nat) :
    ∀ tail : List Nat, tail.length ≤ (decDigitsAux n tail).length := by
  induction n using Nat.strong_induction_on with
  | _ n ih =>
    intro tail
    match n with
    | 0 => simp [decDigitsAux]
    | m + 1 =>
      rw [decDigitsAux]
      have := ih ((m + 1) / 10) (Nat.div_lt_self (Nat.succ_pos m) (by omega))
        (((m + 1) % 10 + 48) :: tail)
      simp only [List.length_cons] at this
      omega

theorem decDigitsAux_digits (n : Nat) :
    ∀ tail : List Nat, (∀ d ∈ tail, 48 ≤ d ∧ d ≤ 57) →
      ∀ d ∈ decDigitsAux n tail, 48 ≤ d ∧ d ≤ 57 := by
  induction n using Nat.strong_induction_on with
  | _ n ih =>
    intro tail htail
    match n with
    | 0 => simpa [decDigitsAux] using htail
    | m + 1 =>
      rw [decDigitsAux]
      refine ih ((m + 1) / 10) (Nat.div_lt_self (Nat.succ_pos m) (by omega)) _ ?_
      intro d hd
      rcases List.mem_cons.mp hd with h' | h'
      · subst h'
        have := Nat.mod_lt (m + 1) (y := 10) (by omega)
        omega
      · exact htail d h'

theorem decDigitsAux_val (n : Nat) :
    0 < n → ∀ tail : List Nat, digitsVal 0 (decDigitsAux n tail) = digitsVal n tail := by
  induction n using Nat.strong_induction_on with
  | _ n ih =>
    intro hn tail
    match n with
    | m + 1 =>
      rw [decDigitsAux]
      by_cases h10 : (m + 1) / 10 = 0
      · rw [h10]
        have harg : 10 * 0 + ((m + 1) % 10 + 48 - 48) = m + 1 := by omega
        simp only [decDigitsAux, digitsVal, List.foldl_cons, harg]
      · rw [ih ((m + 1) / 10) (Nat.div_lt_self (Nat.succ_pos m) (by omega))
          (Nat.pos_of_ne_zero h10)]
        have harg : 10 * ((m + 1) / 10) + ((m + 1) % 10 + 48 - 48) = m + 1 := by omega
        simp only [digitsVal, List.foldl_cons, harg]

theorem decDigits_ne_nil (n : Nat) : decDigits n ≠ [] := by
  unfold decDigits
  by_cases h0 : n = 0
  · simp [h0]
  · rw [if_neg h0]
    match n, h0 with
    | m + 1, _ =>
      rw [decDigitsAux]
      have := decDigitsAux_length ((m + 1) / 10) [(m + 1) % 10 + 48]
      intro hnil
      rw [hnil] at this
      simp at this

theorem decDigits_digits (n : Nat) : ∀ d ∈ decDigits n, 48 ≤ d ∧ d ≤ 57 := by
  unfold decDigits
  by_cases h0 : n = 0
  · simp [h0]
  · rw [if_neg h0]
    exact decDigitsAux_digits n [] (by simp)

theorem decDigits_val (n : Nat) : digitsVal 0 (decDigits n) = n := by
  unfold decDigits
  by_cases h0 : n = 0
  · simp [h0, digitsVal]
  · rw [if_neg h0]
    rw [decDigitsAux_val n (Nat.pos_of_ne_zero h0) []]
    simp [digitsVal]

theorem encode_payload_chunk_scan (data : List Nat) :
    scanDecHeader (encode_payload_chunk data) 0 0 =
      .ok data.length ((decDigits data.length).length + 1) := by
  unfold encode_payload_chunk
  rw [scanDecHeader_digits (decDigits data.length) data 0 0 (decDigits_digits _)
    (by have := List.length_pos.mpr (decDigits_ne_nil data.length); omega)]
  rw [decDigits_val]
  congr 1
  omega

theorem find_payload_encode (data : List Nat) (h : data.length ≤ s_payload_chunk_size_max) :
    find_payload (encode_payload_chunk data) =
      { found := true, size_plus_newline_sz := (decDigits data.length).length + 1,
        data_sz := data.length } := by
  unfold find_payload
  rw [encode_payload_chunk_scan]
  simp only []
  rw [if_neg (by omega), if_neg (by unfold encode_payload_chunk; simp; omega)]

theorem encode_payload_chunk_drop (data : List Nat) :
    (encode_payload_chunk data).drop ((decDigits data.length).length + 1) = data := by
  unfold encode_payload_chunk
  have hassoc : decDigits data.length ++ 10 :: data = (decDigits data.length ++ [10]) ++ data := by
    simp
  have hlen2 : (decDigits data.length ++ [10]).length = (decDigits data.length).length + 1 := by
    simp
  rw [hassoc, ← hlen2, List.drop_left]

/-- C3: a payload chunk with `data_sz` at or under `s_payload_chunk_size_max`
is enqueued by `send_payload_chunk` as its encoding, and scanning the encoded
bytes with `find_payload` yields `found = true` and reproduces `data_sz` and
the data bytes exactly; a chunk constructed with `data_sz = 0` scans as the
payload-end sentinel (`found = true`, `data_sz = 0`, `garbage = false`). -/
theorem send_payload_chunk_roundtrip (data : List Nat) (st : ProtocolState)
    (h : data.length ≤ s_payload_chunk_size_max) :
    (ProtocolState.send_payload_chunk st data).m_output_buff
        = st.m_output_buff ++ [encode_payload_chunk data] ∧
    (find_payload (encode_payload_chunk data)).found = true ∧
    (find_payload (encode_payload_chunk data)).garbage = false ∧
    (find_payload (encode_payload_chunk data)).too_big = false ∧
    (find_payload (encode_payload_chunk data)).data_sz = data.length ∧
    (encode_payload_chunk data).drop
        (find_payload (encode_payload_chunk data)).size_plus_newline_sz = data ∧
    (find_payload (encode_payload_chunk data)).total_size
        = (encode_payload_chunk data).length ∧
    (find_payload (encode_payload_chunk [])).found = true ∧
    (find_payload (encode_payload_chunk [])).data_sz = 0 ∧
    (find_payload (encode_payload_chunk [])).garbage = false := by
  rw [find_payload_encode data h]
  refine ⟨rfl, rfl, rfl, rfl, rfl, encode_payload_chunk_drop data, ?_, by decide, by decide,
    by decide⟩
  unfold PayLoadFound.total_size encode_payload_chunk
  simp
  omega

theorem send_payload_chunk_roundtrip_witness :
    (([97, 98, 99] : List Nat).length ≤ s_payload_chunk_size_max) ∧
    ((ProtocolState.send_payload_chunk initialState [97, 98, 99]).m_output_buff
        = initialState.m_output_buff ++ [encode_payload_chunk [97, 98, 99]] ∧
    (find_payload (encode_payload_chunk [97, 98, 99])).found = true ∧
    (find_payload (encode_payload_chunk [97, 98, 99])).garbage = false ∧
    (find_payload (encode_payload_chunk [97, 98, 99])).too_big = false ∧
    (find_payload (encode_payload_chunk [97, 98, 99])).data_sz = [97, 98, 99].length ∧
    (encode_payload_chunk [97, 98, 99]).drop
        (find_payload (encode_payload_chunk [97, 98, 99])).size_plus_newline_sz = [97, 98, 99] ∧
    (find_payload (encode_payload_chunk [97, 98, 99])).total_size
        = (encode_payload_chunk [97, 98, 99]).length ∧
    (find_payload (encode_payload_chunk [])).found = true ∧
    (find_payload (encode_payload_chunk [])).data_sz = 0 ∧
    (find_payload (encode_payload_chunk [])).garbage = false) :=
  ⟨by decide, send_payload_chunk_roundtrip [97, 98, 99] initialState (by decide)⟩

theorem readLen4_inv (u : List Nat) (v : Nat) (r : List Nat) (h : readLen4 u = some (v, r)) :
    ∃ a b c d, u = a :: b :: c :: d :: r ∧ v = be4 a b c d := by
  match u with
  | [] => simp [readLen4] at h
  | [a] => simp [readLen4] at h
  | [a, b] => simp [readLen4] at h
  | [a, b, c] => simp [readLen4] at h
  | a :: b :: c :: d :: rest =>
    simp only [readLen4, Option.some.injEq, Prod.mk.injEq] at h
    exact ⟨a, b, c, d, by rw [h.2], h.1.symm⟩

theorem readLen4_ext (u ext : List Nat) (v : Nat) (r : List Nat) (h : readLen4 u = some (v, r)) :
    readLen4 (u ++ ext) = some (v, r ++ ext) := by
  obtain ⟨a, b, c, d, hu, hv⟩ := readLen4_inv u v r h
  subst hu hv
  simp [readLen4]

theorem find_message_found_inv (buff : List Nat) (h : (find_message buff).found = true) :
    ∃ p rest, buff = p :: rest ∧
      ((∃ a b c d r2 e f g h4 r4,
          has_signature p = true ∧
          rest = a :: b :: c :: d :: r2 ∧
          be4 a b c d ≤ s_msg_signature_max ∧ be4 a b c d ≤ r2.length ∧
          r2.drop (be4 a b c d) = e :: f :: g :: h4 :: r4 ∧
          be4 e f g h4 ≤ s_msg_size_max ∧ be4 e f g h4 ≤ r4.length ∧
          find_message buff =
            { prefix_c := p, msg_len := be4 e f g h4, found := true,
              encoded := r4.take (be4 e f g h4), encoded_sz := be4 e f g h4,
              signature := r2.take (be4 a b c d), signature_sz := be4 a b c d,
              end_pos := 9 + be4 a b c d + be4 e f g h4 }) ∨
       (∃ e f g h4 r4,
          has_signature p = false ∧ p = 33 ∧
          rest = e :: f :: g :: h4 :: r4 ∧
          be4 e f g h4 ≤ s_msg_size_max ∧ be4 e f g h4 ≤ r4.length ∧
          find_message buff =
            { prefix_c := p, msg_len := be4 e f g h4, found := true,
              encoded := r4.take (be4 e f g h4), encoded_sz := be4 e f g h4,
              end_pos := 5 + be4 e f g h4 })) := by
  match buff with
  | [] => simp [find_message] at h
  | p :: rest =>
    refine ⟨p, rest, rfl, ?_⟩
    have hfm : find_message (p :: rest) = find_message (p :: rest) := rfl
    rw [find_message] at h
    by_cases hs : has_signature p
    · rw [if_pos hs] at h
      left
      cases hr1 : readLen4 rest with
      | none => rw [hr1] at h; simp at h
      | some v1 =>
        obtain ⟨sl, r2⟩ := v1
        rw [hr1] at h
        simp only [] at h
        split at h
        next htb1 => simp at h
        next htb1 =>
          split at h
          next hins1 => simp at h
          next hins1 =>
            cases hr2 : readLen4 (r2.drop sl) with
            | none => rw [hr2] at h; simp at h
            | some v2 =>
              obtain ⟨ml, r4⟩ := v2
              rw [hr2] at h
              simp only [] at h
              split at h
              next htb2 => simp at h
              next htb2 =>
                split at h
                next hins2 => simp at h
                next hins2 =>
                  obtain ⟨a, b, c, d, hrest, hsl⟩ := readLen4_inv rest sl r2 hr1
                  obtain ⟨e, f, g, h4, hdrop, hml⟩ := readLen4_inv (r2.drop sl) ml r4 hr2
                  subst hsl hml
                  refine ⟨a, b, c, d, r2, e, f, g, h4, r4, hs, hrest, by omega, by omega,
                    hdrop, by omega, by omega, ?_⟩
                  rw [find_message, if_pos hs, hr1]
                  simp only []
                  rw [if_neg htb1, if_neg hins1, hr2]
                  simp only []
                  rw [if_neg htb2, if_neg hins2]
    · rw [if_neg hs] at h
      right
      by_cases hp : p = 33
      · rw [if_pos hp] at h
        cases hr1 : readLen4 rest with
        | none => rw [hr1] at h; simp at h
        | some v1 =>
          obtain ⟨ml, r4⟩ := v1
          rw [hr1] at h
          simp only [] at h
          split at h
          next htb2 => simp at h
          next htb2 =>
            split at h
            next hins2 => simp at h
            next hins2 =>
              obtain ⟨e, f, g, h4, hrest, hml⟩ := readLen4_inv rest ml r4 hr1
              subst hml
              refine ⟨e, f, g, h4, r4, by simp [hs], hp, hrest, by omega, by omega, ?_⟩
              rw [find_message, if_neg hs, if_pos hp, hr1]
              simp only []
              rw [if_neg htb2, if_neg hins2]
      · rw [if_neg hp] at h
        simp at h

theorem find_message_garbage_inv (buff : List Nat) (h : (find_message buff).garbage = true) :
    ∃ p rest, buff = p :: rest ∧
      ((has_signature p = false ∧ p ≠ 33 ∧ find_message buff = { garbage := true }) ∨
       (∃ a b c d r2,
          has_signature p = true ∧ rest = a :: b :: c :: d :: r2 ∧
          s_msg_signature_max < be4 a b c d ∧
          find_message buff = { garbage := true, too_big := true }) ∨
       (∃ a b c d r2 e f g h4 r4,
          has_signature p = true ∧ rest = a :: b :: c :: d :: r2 ∧
          be4 a b c d ≤ s_msg_signature_max ∧ be4 a b c d ≤ r2.length ∧
          r2.drop (be4 a b c d) = e :: f :: g :: h4 :: r4 ∧
          s_msg_size_max < be4 e f g h4 ∧
          find_message buff = { garbage := true, too_big := true }) ∨
       (∃ e f g h4 r4,
          has_signature p = false ∧ p = 33 ∧ rest = e :: f :: g :: h4 :: r4 ∧
          s_msg_size_max < be4 e f g h4 ∧
          find_message buff = { garbage := true, too_big := true })) := by
  match buff with
  | [] => simp [find_message] at h
  | p :: rest =>
    refine ⟨p, rest, rfl, ?_⟩
    rw [find_message] at h
    by_cases hs : has_signature p
    · rw [if_pos hs] at h
      cases hr1 : readLen4 rest with
      | none => rw [hr1] at h; simp at h
      | some v1 =>
        obtain ⟨sl, r2⟩ := v1
        rw [hr1] at h
        simp only [] at h
        obtain ⟨a, b, c, d, hrest, hsl⟩ := readLen4_inv rest sl r2 hr1
        split at h
        next htb1 =>
          refine Or.inr (Or.inl ⟨a, b, c, d, r2, hs, hrest, by omega, ?_⟩)
          rw [find_message, if_pos hs, hr1]
          simp only []
          rw [if_pos htb1]
        next htb1 =>
          split at h
          next hins1 => simp at h
          next hins1 =>
            cases hr2 : readLen4 (r2.drop sl) with
            | none => rw [hr2] at h; simp at h
            | some v2 =>
              obtain ⟨ml, r4⟩ := v2
              rw [hr2] at h
              simp only [] at h
              obtain ⟨e, f, g, h4, hdrop, hml⟩ := readLen4_inv (r2.drop sl) ml r4 hr2
              split at h
              next htb2 =>
                refine Or.inr (Or.inr (Or.inl
                  ⟨a, b, c, d, r2, e, f, g, h4, r4, hs, hrest, by omega, by omega,
                    by rw [← hsl]; exact hdrop, by omega, ?_⟩))
                rw [find_message, if_pos hs, hr1]
                simp only []
                rw [if_neg htb1, if_neg hins1, hr2]
                simp only []
                rw [if_pos htb2]
              next htb2 =>
                split at h
                next hins2 => simp at h
                next hins2 => simp at h
    · rw [if_neg hs] at h
      by_cases hp : p = 33
      · rw [if_pos hp] at h
        cases hr1 : readLen4 rest with
        | none => rw [hr1] at h; simp at h
        | some v1 =>
          obtain ⟨ml, r4⟩ := v1
          rw [hr1] at h
          simp only [] at h
          obtain ⟨e, f, g, h4, hrest, hml⟩ := readLen4_inv rest ml r4 hr1
          split at h
          next htb2 =>
            refine Or.inr (Or.inr (Or.inr ⟨e, f, g, h4, r4, by simp [hs], hp, hrest,
              by omega, ?_⟩))
            rw [find_message, if_neg hs, if_pos hp, hr1]
            simp only []
            rw [if_pos htb2]
          next htb2 =>
            split at h
            next hins2 => simp at h
            next hins2 => simp at h
      · rw [if_neg hp] at h
        refine Or.inl ⟨by simp [hs], hp, ?_⟩
        rw [find_message, if_neg hs, if_neg hp]

theorem find_message_ext (buff ext : List Nat)
    (h : (find_message buff).found = true ∨ (find_message buff).garbage = true) :
    find_message (buff ++ ext) = find_message buff := by
  rcases h with h | h
  · obtain ⟨p, rest, hb, hcase⟩ := find_message_found_inv buff h
    subst hb
    rcases hcase with ⟨a, b, c, d, r2, e, f, g, h4, r4, hs, hrest, hsl, hslr, hdrop, hml,
      hmlr, heq⟩ | ⟨e, f, g, h4, r4, hs, hp, hrest, hml, hmlr, heq⟩
    · subst hrest
      rw [heq, List.cons_append, find_message, if_pos hs]
      have hr1 : readLen4 ((a :: b :: c :: d :: r2) ++ ext) = some (be4 a b c d, r2 ++ ext) := by
        simp [readLen4]
      rw [hr1]
      simp only []
      rw [if_neg (by omega), if_neg (by simp only [List.length_append]; omega)]
      rw [List.drop_append_of_le_length hslr, hdrop]
      have hr2 : readLen4 ((e :: f :: g :: h4 :: r4) ++ ext) = some (be4 e f g h4, r4 ++ ext) := by
        simp [readLen4]
      rw [List.cons_append, List.cons_append, List.cons_append, List.cons_append] at hr2 ⊢
      rw [hr2]
      simp only []
      rw [if_neg (by omega), if_neg (by simp only [List.length_append]; omega)]
      rw [List.take_append_of_le_length hmlr, List.take_append_of_le_length hslr]
    · subst hrest
      rw [heq, List.cons_append, find_message, if_neg (by simp [hs]), if_pos hp]
      have hr1 : readLen4 ((e :: f :: g :: h4 :: r4) ++ ext) = some (be4 e f g h4, r4 ++ ext) := by
        simp [readLen4]
      rw [hr1]
      simp only []
      rw [if_neg (by omega), if_neg (by simp only [List.length_append]; omega)]
      rw [List.take_append_of_le_length hmlr]
  · obtain ⟨p, rest, hb, hcase⟩ := find_message_garbage_inv buff h
    subst hb
    rcases hcase with ⟨hs, hp, heq⟩ |
      ⟨a, b, c, d, r2, hs, hrest, hsl, heq⟩ |
      ⟨a, b, c, d, r2, e, f, g, h4, r4, hs, hrest, hsl, hslr, hdrop, hml, heq⟩ |
      ⟨e, f, g, h4, r4, hs, hp, hrest, hml, heq⟩
    · rw [heq, List.cons_append, find_message, if_neg (by simp [hs]), if_neg hp]
    · subst hrest
      rw [heq, List.cons_append, find_message, if_pos hs]
      have hr1 : readLen4 ((a :: b :: c :: d :: r2) ++ ext) = some (be4 a b c d, r2 ++ ext) := by
        simp [readLen4]
      rw [hr1]
      simp only []
      rw [if_pos hsl]
    · subst hrest
      rw [heq, List.cons_append, find_message, if_pos hs]
      have hr1 : readLen4 ((a :: b :: c :: d :: r2) ++ ext) = some (be4 a b c d, r2 ++ ext) := by
        simp [readLen4]
      rw [hr1]
      simp only []
      rw [if_neg (by omega), if_neg (by simp only [List.length_append]; omega)]
      rw [List.drop_append_of_le_length hslr, hdrop]
      have hr2 : readLen4 ((e :: f :: g :: h4 :: r4) ++ ext) = some (be4 e f g h4, r4 ++ ext) := by
        simp [readLen4]
      rw [List.cons_append, List.cons_append, List.cons_append, List.cons_append] at hr2 ⊢
      rw [hr2]
      simp only []
      rw [if_pos hml]
    · subst hrest
      rw [heq, List.cons_append, find_message, if_neg (by simp [hs]), if_pos hp]
      have hr1 : readLen4 ((e :: f :: g :: h4 :: r4) ++ ext) = some (be4 e f g h4, r4 ++ ext) := by
        simp [readLen4]
      rw [hr1]
      simp only []
      rw [if_pos hml]

theorem find_message_found_bounds (buff : List Nat) (h : (find_message buff).found = true) :
    1 ≤ (find_message buff).end_pos ∧ (find_message buff).end_pos ≤ buff.length := by
  obtain ⟨p, rest, hb, hcase⟩ := find_message_found_inv buff h
  subst hb
  rcases hcase with ⟨a, b, c, d, r2, e, f, g, h4, r4, hs, hrest, hsl, hslr, hdrop, hml,
    hmlr, heq⟩ | ⟨e, f, g, h4, r4, hs, hp, hrest, hml, hmlr, heq⟩
  · subst hrest
    rw [heq]
    have hlen := congrArg List.length hdrop
    rw [List.length_drop] at hlen
    simp only [List.length_cons] at hlen
    simp only [List.length_cons]
    constructor
    · omega
    · omega
  · subst hrest
    rw [heq]
    simp only [List.length_cons]
    omega

theorem find_payload_found_bounds (buff : List Nat) (h : (find_payload buff).found = true) :
    1 ≤ (find_payload buff).size_plus_newline_sz ∧
      (find_payload buff).size_plus_newline_sz + (find_payload buff).data_sz ≤ buff.length := by
  obtain ⟨sz, hlen, hscan, hsz, hle, hpos, heq⟩ := find_payload_found_inv buff h
  rw [heq]
  exact ⟨hpos, hle⟩

theorem readLen4_be4enc (n : Nat) (rest : List Nat) (h : n < 4294967296) :
    readLen4 (be4enc n ++ rest) = some (n, rest) := by
  simp only [be4enc, List.cons_append, List.nil_append, readLen4]
  rw [be4_be4enc n h]

theorem find_message_encode (m : Message)
    (htag : m.tag = 33 ∨ m.tag = 115 ∨ m.tag = 36)
    (hsig : m.signature.length ≤ s_msg_signature_max)
    (hlen : m.encoded.length ≤ s_msg_size_max) :
    find_message (encode_message m) =
      if has_signature m.tag then
        { prefix_c := m.tag, msg_len := m.encoded.length, found := true,
          encoded := m.encoded, encoded_sz := m.encoded.length,
          signature := m.signature, signature_sz := m.signature.length,
          end_pos := 9 + m.signature.length + m.encoded.length }
      else
        { prefix_c := m.tag, msg_len := m.encoded.length, found := true,
          encoded := m.encoded, encoded_sz := m.encoded.length,
          end_pos := 5 + m.encoded.length } := by
  have hc1 : s_msg_signature_max = 512 := rfl
  have hc2 : s_msg_size_max = 16777216 := rfl
  have hlen4 : ∀ k : Nat, (be4enc k).length = 4 := fun k => rfl
  unfold encode_message
  by_cases hs : has_signature m.tag
  · rw [if_pos hs, if_pos hs, find_message, if_pos hs]
    have hassoc :
        be4enc m.signature.length ++ m.signature ++ be4enc m.encoded.length ++ m.encoded =
          be4enc m.signature.length ++
            (m.signature ++ (be4enc m.encoded.length ++ m.encoded)) := by
      simp [List.append_assoc]
    rw [hassoc, readLen4_be4enc _ _ (by omega)]
    simp only []
    rw [if_neg (by omega),
      if_neg (by simp only [List.length_append, hlen4]; omega),
      List.drop_left, readLen4_be4enc _ _ (by omega)]
    simp only []
    rw [if_neg (by omega), if_neg (by omega), List.take_left]
    simp [List.take_length]
  · rw [if_neg hs, if_neg hs]
    have hp : m.tag = 33 := by
      rcases htag with h | h | h
      · exact h
      · rw [h] at hs
        simp [has_signature] at hs
      · rw [h] at hs
        simp [has_signature] at hs
    rw [find_message, if_neg hs, if_pos hp, readLen4_be4enc _ _ (by omega)]
    simp only []
    rw [if_neg (by omega), if_neg (by omega)]
    simp [List.take_length, hp]

/-- C2: a valid message (recognized tag, signature and body lengths at or
under the configured maxima) is enqueued by `send_message` as its encoding,
and scanning the encoded bytes with `find_message` yields `found = true` and
reproduces the prefix tag, the signature bytes (when the prefix implies a
signature) and the encoded body bytes exactly, consuming the whole frame. -/
theorem send_message_roundtrip (m : Message) (st : ProtocolState)
    (htag : m.tag = 33 ∨ m.tag = 115 ∨ m.tag = 36)
    (hsig : m.signature.length ≤ s_msg_signature_max)
    (hlen : m.encoded.length ≤ s_msg_size_max) :
    (ProtocolState.send_message st m).m_output_buff
        = st.m_output_buff ++ [encode_message m] ∧
    (find_message (encode_message m)).found = true ∧
    (find_message (encode_message m)).garbage = false ∧
    (find_message (encode_message m)).too_big = false ∧
    (find_message (encode_message m)).prefix_c = m.tag ∧
    (has_signature m.tag = true → (find_message (encode_message m)).signature = m.signature) ∧
    (find_message (encode_message m)).encoded = m.encoded ∧
    (find_message (encode_message m)).end_pos = (encode_message m).length := by
  rw [find_message_encode m htag hsig hlen]
  by_cases hs : has_signature m.tag
  · rw [if_pos hs]
    refine ⟨rfl, rfl, rfl, rfl, rfl, fun _ => rfl, rfl, ?_⟩
    unfold encode_message
    rw [if_pos hs]
    simp only [List.length_cons, List.length_append]
    have hlen4 : ∀ k : Nat, (be4enc k).length = 4 := fun k => rfl
    rw [hlen4, hlen4]
    omega
  · rw [if_neg hs]
    refine ⟨rfl, rfl, rfl, rfl, rfl, fun hcon => absurd hcon hs, rfl, ?_⟩
    unfold encode_message
    rw [if_neg hs]
    simp only [List.length_cons, List.length_append]
    have hlen4 : ∀ k : Nat, (be4enc k).length = 4 := fun k => rfl
    rw [hlen4]
    omega

theorem send_message_roundtrip_witness :
    (msgEx.tag = 33 ∨ msgEx.tag = 115 ∨ msgEx.tag = 36) ∧
    ((ProtocolState.send_message initialState msgEx).m_output_buff
        = initialState.m_output_buff ++ [encode_message msgEx] ∧
    (find_message (encode_message msgEx)).found = true ∧
    (find_message (encode_message msgEx)).garbage = false ∧
    (find_message (encode_message msgEx)).too_big = false ∧
    (find_message (encode_message msgEx)).prefix_c = msgEx.tag ∧
    (has_signature msgEx.tag = true →
      (find_message (encode_message msgEx)).signature = msgEx.signature) ∧
    (find_message (encode_message msgEx)).encoded = msgEx.encoded ∧
    (find_message (encode_message msgEx)).end_pos = (encode_message msgEx).length) :=
  ⟨by decide,
    send_message_roundtrip msgEx initialState (by decide) (by decide) (by decide)⟩

theorem find_message_sig_found (buff : List Nat)
    (h : (find_message buff).signature_sz ≠ 0) : (find_message buff).found = true := by
  match buff with
  | [] => simp [find_message] at h
  | p :: rest =>
    rw [find_message] at h ⊢
    by_cases hs : has_signature p
    · rw [if_pos hs] at h ⊢
      cases hr1 : readLen4 rest with
      | none => rw [hr1] at h; simp at h
      | some v1 =>
        obtain ⟨sl, r2⟩ := v1
        rw [hr1] at h
        simp only [] at h ⊢
        split at h
        next => simp at h
        next htb1 =>
          rw [if_neg htb1]
          split at h
          next => simp at h
          next hins1 =>
            rw [if_neg hins1]
            cases hr2 : readLen4 (r2.drop sl) with
            | none => rw [hr2] at h; simp at h
            | some v2 =>
              obtain ⟨ml, r4⟩ := v2
              rw [hr2] at h
              simp only [] at h ⊢
              split at h
              next => simp at h
              next htb2 =>
                rw [if_neg htb2]
                split at h
                next => simp at h
                next hins2 => rw [if_neg hins2]
    · rw [if_neg hs] at h
      by_cases hp : p = 33
      · rw [if_pos hp] at h
        cases hr1 : readLen4 rest with
        | none => rw [hr1] at h; simp at h
        | some v1 =>
          obtain ⟨ml, r4⟩ := v1
          rw [hr1] at h
          simp only [] at h
          split at h
          next => simp at h
          next htb2 =>
            split at h
            next => simp at h
            next hins2 => simp at h
      · rw [if_neg hp] at h
        simp at h

/-- C9 (amended): `MsgRstate::has_signature()` reports `signature_sz != 0`;
for every scan result of `find_message` a reported signature implies a
signature-implying prefix tag, but the two predicates do not agree on every
`MsgRstate` value (nor on signed frames whose declared signature length is
zero), as the counterexample shows. -/
theorem msgrstate_signature_only_if_signed (buff : List Nat)
    (h : (find_message buff).has_signature = true) :
    has_signature (find_message buff).prefix_c = true := by
  have hnz : (find_message buff).signature_sz ≠ 0 := by
    simpa [MsgRstate.has_signature] using h
  have hf := find_message_sig_found buff hnz
  obtain ⟨p, rest, hb, hcase⟩ := find_message_found_inv buff hf
  rcases hcase with ⟨a, b, c, d, r2, e, f, g, h4, r4, hs, _, _, _, _, _, _, heq⟩ |
    ⟨e, f, g, h4, r4, hs, hp, _, _, _, heq⟩
  · rw [heq]
    exact hs
  · rw [heq] at hnz
    simp at hnz

theorem msgrstate_signature_only_if_signed_witness :
    (find_message [115, 0, 0, 0, 1, 9, 0, 0, 0, 0]).has_signature = true ∧
    has_signature (find_message [115, 0, 0, 0, 1, 9, 0, 0, 0, 0]).prefix_c = true :=
  ⟨by decide, msgrstate_signature_only_if_signed [115, 0, 0, 0, 1, 9, 0, 0, 0, 0] (by decide)⟩

theorem find_payload_nil : find_payload [] = {} := rfl

theorem find_message_nil : find_message [] = {} := rfl

theorem consumeSentinel_buff (st : ProtocolState) :
    (consumeSentinel st).m_input_buff =
      st.m_input_buff.drop (find_payload st.m_input_buff).size_plus_newline_sz := rfl

theorem consumeData_buff (st : ProtocolState) :
    (consumeData st).m_input_buff =
      st.m_input_buff.drop
        ((find_payload st.m_input_buff).size_plus_newline_sz +
          (find_payload st.m_input_buff).data_sz) := rfl

theorem consumeMessage_buff (st : ProtocolState) :
    (consumeMessage st).m_input_buff =
      st.m_input_buff.drop (find_message st.m_input_buff).end_pos := rfl

theorem consumeSentinel_len_le (st : ProtocolState) (n : Nat)
    (hf : (find_payload st.m_input_buff).found = true)
    (hn : st.m_input_buff.length ≤ n + 1) :
    (consumeSentinel st).m_input_buff.length ≤ n := by
  have hb := find_payload_found_bounds st.m_input_buff hf
  rw [consumeSentinel_buff, List.length_drop]
  omega

theorem consumeData_len_le (st : ProtocolState) (n : Nat)
    (hf : (find_payload st.m_input_buff).found = true)
    (hn : st.m_input_buff.length ≤ n + 1) :
    (consumeData st).m_input_buff.length ≤ n := by
  have hb := find_payload_found_bounds st.m_input_buff hf
  rw [consumeData_buff, List.length_drop]
  omega

theorem consumeMessage_len_le (st : ProtocolState) (n : Nat)
    (hf : (find_message st.m_input_buff).found = true)
    (hn : st.m_input_buff.length ≤ n + 1) :
    (consumeMessage st).m_input_buff.length ≤ n := by
  have hb := find_message_found_bounds st.m_input_buff hf
  rw [consumeMessage_buff, List.length_drop]
  omega

theorem processN_nil (n : Nat) (st : ProtocolState) (hb : st.m_input_buff = []) :
    processN n st = (st, []) := by
  cases n with
  | zero => rfl
  | succ n =>
    rw [processN, hb]
    simp [find_payload_nil, find_message_nil]

theorem processN_congr (n : Nat) :
    ∀ m (st : ProtocolState), st.m_input_buff.length ≤ n → st.m_input_buff.length ≤ m →
      processN n st = processN m st := by
  induction n with
  | zero =>
    intro m st hn _
    have hb : st.m_input_buff = [] := List.length_eq_zero.mp (Nat.le_zero.mp hn)
    rw [processN_nil 0 st hb, processN_nil m st hb]
  | succ n ih =>
    intro m st hn hm
    cases m with
    | zero =>
      have hb : st.m_input_buff = [] := List.length_eq_zero.mp (Nat.le_zero.mp hm)
      rw [processN_nil (n + 1) st hb, processN_nil 0 st hb]
    | succ m =>
      rw [processN, processN]
      by_cases hmode : st.m_read_payload = true
      · simp only [hmode, if_true]
        by_cases hg : (find_payload st.m_input_buff).garbage = true
        · simp only [hg, if_true]
        · simp only [hg, if_false, Bool.false_eq_true]
          by_cases hf : (find_payload st.m_input_buff).found = true
          · rw [if_pos hf, if_pos hf]
            by_cases hz : (find_payload st.m_input_buff).data_sz = 0
            · rw [if_pos hz, if_pos hz,
                ih m (consumeSentinel st) (consumeSentinel_len_le st n hf hn)
                  (consumeSentinel_len_le st m hf hm)]
            · rw [if_neg hz, if_neg hz,
                ih m (consumeData st) (consumeData_len_le st n hf hn)
                  (consumeData_len_le st m hf hm)]
          · rw [if_neg hf, if_neg hf]
      · simp only [Bool.not_eq_true] at hmode
        simp only [hmode, Bool.false_eq_true, if_false]
        by_cases hg : (find_message st.m_input_buff).garbage = true
        · rw [if_pos hg, if_pos hg]
        · rw [if_neg hg, if_neg hg]
          by_cases hf : (find_message st.m_input_buff).found = true
          · rw [if_pos hf, if_pos hf,
              ih m (consumeMessage st) (consumeMessage_len_le st n hf hn)
                (consumeMessage_len_le st m hf hm)]
          · rw [if_neg hf, if_neg hf]

theorem process_eq_processN (n : Nat) (st : ProtocolState) (hn : st.m_input_buff.length ≤ n) :
    process st = processN n st :=
  processN_congr st.m_input_buff.length n st le_rfl hn

theorem process_stuck_pl (st : ProtocolState) (hmode : st.m_read_payload = true)
    (hg : (find_payload st.m_input_buff).garbage = false)
    (hf : (find_payload st.m_input_buff).found = false) :
    process st = (st, []) := by
  unfold process
  cases hlen : st.m_input_buff.length with
  | zero => exact processN_nil 0 st (List.length_eq_zero.mp hlen)
  | succ k =>
    rw [processN]
    simp [hmode, hg, hf]

theorem process_garb_pl (st : ProtocolState) (hmode : st.m_read_payload = true)
    (hg : (find_payload st.m_input_buff).garbage = true) :
    process st = (st, [Event.pl_garbage st.m_input_buff]) := by
  unfold process
  cases hlen : st.m_input_buff.length with
  | zero =>
    have hb : st.m_input_buff = [] := List.length_eq_zero.mp hlen
    rw [hb, find_payload_nil] at hg
    simp at hg
  | succ k =>
    rw [processN]
    simp [hmode, hg]

theorem process_sent_pl (st : ProtocolState) (hmode : st.m_read_payload = true)
    (hg : (find_payload st.m_input_buff).garbage = false)
    (hf : (find_payload st.m_input_buff).found = true)
    (hz : (find_payload st.m_input_buff).data_sz = 0) :
    process st = ((process (consumeSentinel st)).1,
      Event.payload_end :: (process (consumeSentinel st)).2) := by
  unfold process
  cases hlen : st.m_input_buff.length with
  | zero =>
    have hb : st.m_input_buff = [] := List.length_eq_zero.mp hlen
    rw [hb, find_payload_nil] at hf
    simp at hf
  | succ k =>
    rw [processN]
    simp only [hmode, if_true, hg, Bool.false_eq_true, if_false, hf, hz, if_pos rfl]
    rw [processN_congr k (consumeSentinel st).m_input_buff.length (consumeSentinel st)
      (consumeSentinel_len_le st k hf (by omega)) le_rfl]

theorem process_data_pl (st : ProtocolState) (hmode : st.m_read_payload = true)
    (hg : (find_payload st.m_input_buff).garbage = false)
    (hf : (find_payload st.m_input_buff).found = true)
    (hz : (find_payload st.m_input_buff).data_sz ≠ 0) :
    process st = ((process (consumeData st)).1,
      Event.payload (payloadSpan st) :: (process (consumeData st)).2) := by
  unfold process
  cases hlen : st.m_input_buff.length with
  | zero =>
    have hb : st.m_input_buff = [] := List.length_eq_zero.mp hlen
    rw [hb, find_payload_nil] at hf
    simp at hf
  | succ k =>
    rw [processN]
    simp only [hmode, if_true, hg, Bool.false_eq_true, if_false, hf, if_neg hz]
    rw [processN_congr k (consumeData st).m_input_buff.length (consumeData st)
      (consumeData_len_le st k hf (by omega)) le_rfl]

theorem process_stuck_msg (st : ProtocolState) (hmode : st.m_read_payload = false)
    (hg : (find_message st.m_input_buff).garbage = false)
    (hf : (find_message st.m_input_buff).found = false) :
    process st = (st, []) := by
  unfold process
  cases hlen : st.m_input_buff.length with
  | zero => exact processN_nil 0 st (List.length_eq_zero.mp hlen)
  | succ k =>
    rw [processN]
    simp [hmode, hg, hf]

theorem process_garb_msg (st : ProtocolState) (hmode : st.m_read_payload = false)
    (hg : (find_message st.m_input_buff).garbage = true) :
    process st = (st, [Event.msg_garbage st.m_input_buff]) := by
  unfold process
  cases hlen : st.m_input_buff.length with
  | zero =>
    have hb : st.m_input_buff = [] := List.length_eq_zero.mp hlen
    rw [hb, find_message_nil] at hg
    simp at hg
  | succ k =>
    rw [processN]
    simp [hmode, hg]

theorem process_found_msg (st : ProtocolState) (hmode : st.m_read_payload = false)
    (hg : (find_message st.m_input_buff).garbage = false)
    (hf : (find_message st.m_input_buff).found = true) :
    process st = ((process (consumeMessage st)).1,
      Event.msg (find_message st.m_input_buff).prefix_c
          (find_message st.m_input_buff).signature
          (find_message st.m_input_buff).encoded ::
        (process (consumeMessage st)).2) := by
  unfold process
  cases hlen : st.m_input_buff.length with
  | zero =>
    have hb : st.m_input_buff = [] := List.length_eq_zero.mp hlen
    rw [hb, find_message_nil] at hf
    simp at hf
  | succ k =>
    rw [processN]
    simp only [hmode, Bool.false_eq_true, if_false, hg, hf, if_true]
    rw [processN_congr k (consumeMessage st).m_input_buff.length (consumeMessage st)
      (consumeMessage_len_le st k hf (by omega)) le_rfl]

theorem upd_buff (st : ProtocolState) (x : List Nat) :
    ({ st with m_input_buff := x } : ProtocolState).m_input_buff = x := rfl

theorem upd_mode (st : ProtocolState) (x : List Nat) :
    ({ st with m_input_buff := x } : ProtocolState).m_read_payload = st.m_read_payload := rfl

theorem dispatches_nil : dispatches [] = [] := rfl

theorem dispatches_append (l1 l2 : List Event) :
    dispatches (l1 ++ l2) = dispatches l1 ++ dispatches l2 :=
  List.filter_append l1 l2

theorem dispatches_cons_pe (t : List Event) :
    dispatches (Event.payload_end :: t) = Event.payload_end :: dispatches t := rfl

theorem dispatches_cons_payload (d : List Nat) (t : List Event) :
    dispatches (Event.payload d :: t) = Event.payload d :: dispatches t := rfl

theorem dispatches_cons_msg (p : Nat) (s e : List Nat) (t : List Event) :
    dispatches (Event.msg p s e :: t) = Event.msg p s e :: dispatches t := rfl

theorem dispatches_cons_plg (bf : List Nat) (t : List Event) :
    dispatches (Event.pl_garbage bf :: t) = dispatches t := rfl

theorem dispatches_cons_msgg (bf : List Nat) (t : List Event) :
    dispatches (Event.msg_garbage bf :: t) = dispatches t := rfl

theorem consumeSentinel_append (st : ProtocolState) (b : List Nat)
    (hf : (find_payload st.m_input_buff).found = true) :
    consumeSentinel { st with m_input_buff := st.m_input_buff ++ b } =
      { consumeSentinel st with
          m_input_buff := (consumeSentinel st).m_input_buff ++ b } := by
  have hfpE := find_payload_ext st.m_input_buff b (Or.inl hf)
  have hb := find_payload_found_bounds st.m_input_buff hf
  cases st with
  | mk ib ob lhp pe rp wip =>
    simp only [] at hb
    simp only [consumeSentinel, upd_buff] at hfpE ⊢
    simp only [hfpE]
    rw [List.drop_append_of_le_length (by omega)]

theorem consumeData_append (st : ProtocolState) (b : List Nat)
    (hf : (find_payload st.m_input_buff).found = true) :
    consumeData { st with m_input_buff := st.m_input_buff ++ b } =
      { consumeData st with
          m_input_buff := (consumeData st).m_input_buff ++ b } := by
  have hfpE := find_payload_ext st.m_input_buff b (Or.inl hf)
  have hb := find_payload_found_bounds st.m_input_buff hf
  cases st with
  | mk ib ob lhp pe rp wip =>
    simp only [] at hb
    simp only [consumeData, upd_buff] at hfpE ⊢
    simp only [hfpE]
    rw [List.drop_append_of_le_length (by omega)]

theorem consumeMessage_append (st : ProtocolState) (b : List Nat)
    (hf : (find_message st.m_input_buff).found = true) :
    consumeMessage { st with m_input_buff := st.m_input_buff ++ b } =
      { consumeMessage st with
          m_input_buff := (consumeMessage st).m_input_buff ++ b } := by
  have hfmE := find_message_ext st.m_input_buff b (Or.inl hf)
  have hb := find_message_found_bounds st.m_input_buff hf
  cases st with
  | mk ib ob lhp pe rp wip =>
    simp only [] at hb
    simp only [consumeMessage, upd_buff] at hfmE ⊢
    simp only [hfmE]
    rw [List.drop_append_of_le_length (by omega)]

theorem payloadSpan_append (st : ProtocolState) (b : List Nat)
    (hf : (find_payload st.m_input_buff).found = true) :
    payloadSpan { st with m_input_buff := st.m_input_buff ++ b } = payloadSpan st := by
  have hfpE := find_payload_ext st.m_input_buff b (Or.inl hf)
  have hb := find_payload_found_bounds st.m_input_buff hf
  cases st with
  | mk ib ob lhp pe rp wip =>
    simp only [] at hb
    simp only [payloadSpan, upd_buff] at hfpE ⊢
    simp only [hfpE]
    rw [List.drop_append_of_le_length (by omega),
      List.take_append_of_le_length (by rw [List.length_drop]; omega)]

theorem process_append (n : Nat) :
    ∀ (st : ProtocolState) (b : List Nat), st.m_input_buff.length ≤ n →
      (process { st with m_input_buff := st.m_input_buff ++ b }).1 =
        (process { (process st).1 with
          m_input_buff := (process st).1.m_input_buff ++ b }).1 ∧
      dispatches (process { st with m_input_buff := st.m_input_buff ++ b }).2 =
        dispatches (process st).2 ++
          dispatches (process { (process st).1 with
            m_input_buff := (process st).1.m_input_buff ++ b }).2 := by
  induction n with
  | zero =>
    intro st b hn
    have hb : st.m_input_buff = [] := List.length_eq_zero.mp (Nat.le_zero.mp hn)
    have h1 : process st = (st, []) := by
      unfold process
      exact processN_nil _ st hb
    have hps1 : (process st).1 = st := by rw [h1]
    have hps2 : dispatches (process st).2 = [] := by rw [h1]; rfl
    exact ⟨by rw [hps1], by rw [hps2, List.nil_append, hps1]⟩
  | succ n ih =>
    intro st b hn
    by_cases hmode : st.m_read_payload = true
    · by_cases hg : (find_payload st.m_input_buff).garbage = true
      · have h1 := process_garb_pl st hmode hg
        have hps1 : (process st).1 = st := by rw [h1]
        have hps2 : dispatches (process st).2 = [] := by rw [h1]; rfl
        exact ⟨by rw [hps1], by rw [hps2, List.nil_append, hps1]⟩
      · have hgb : (find_payload st.m_input_buff).garbage = false := by simpa using hg
        by_cases hf : (find_payload st.m_input_buff).found = true
        · have hfpE := find_payload_ext st.m_input_buff b (Or.inl hf)
          by_cases hz : (find_payload st.m_input_buff).data_sz = 0
          · have h1 := process_sent_pl st hmode hgb hf hz
            have hE := process_sent_pl { st with m_input_buff := st.m_input_buff ++ b }
              (by rw [upd_mode]; exact hmode)
              (by rw [upd_buff, hfpE]; exact hgb)
              (by rw [upd_buff, hfpE]; exact hf)
              (by rw [upd_buff, hfpE]; exact hz)
            rw [consumeSentinel_append st b hf] at hE
            have hlen' : (consumeSentinel st).m_input_buff.length ≤ n :=
              consumeSentinel_len_le st n hf hn
            obtain ⟨ih1, ih2⟩ := ih (consumeSentinel st) b hlen'
            have hps1 : (process st).1 = (process (consumeSentinel st)).1 := by rw [h1]
            have hps2 : dispatches (process st).2 =
                Event.payload_end :: dispatches (process (consumeSentinel st)).2 := by
              rw [h1]
              rfl
            constructor
            · rw [hE]
              simp only []
              rw [ih1, hps1]
            · rw [hE]
              simp only []
              rw [dispatches_cons_pe, ih2, hps2, hps1, List.cons_append]
          · have h1 := process_data_pl st hmode hgb hf hz
            have hE := process_data_pl { st with m_input_buff := st.m_input_buff ++ b }
              (by rw [upd_mode]; exact hmode)
              (by rw [upd_buff, hfpE]; exact hgb)
              (by rw [upd_buff, hfpE]; exact hf)
              (by rw [upd_buff, hfpE]; exact hz)
            rw [consumeData_append st b hf, payloadSpan_append st b hf] at hE
            have hlen' : (consumeData st).m_input_buff.length ≤ n :=
              consumeData_len_le st n hf hn
            obtain ⟨ih1, ih2⟩ := ih (consumeData st) b hlen'
            have hps1 : (process st).1 = (process (consumeData st)).1 := by rw [h1]
            have hps2 : dispatches (process st).2 =
                Event.payload (payloadSpan st) :: dispatches (process (consumeData st)).2 := by
              rw [h1]
              rfl
            constructor
            · rw [hE]
              simp only []
              rw [ih1, hps1]
            · rw [hE]
              simp only []
              rw [dispatches_cons_payload, ih2, hps2, hps1, List.cons_append]
        · have hfb : (find_payload st.m_input_buff).found = false := by simpa using hf
          have h1 := process_stuck_pl st hmode hgb hfb
          have hps1 : (process st).1 = st := by rw [h1]
          have hps2 : dispatches (process st).2 = [] := by rw [h1]; rfl
          exact ⟨by rw [hps1], by rw [hps2, List.nil_append, hps1]⟩
    · have hmodeb : st.m_read_payload = false := by simpa using hmode
      by_cases hg : (find_message st.m_input_buff).garbage = true
      · have h1 := process_garb_msg st hmodeb hg
        have hps1 : (process st).1 = st := by rw [h1]
        have hps2 : dispatches (process st).2 = [] := by rw [h1]; rfl
        exact ⟨by rw [hps1], by rw [hps2, List.nil_append, hps1]⟩
      · have hgb : (find_message st.m_input_buff).garbage = false := by simpa using hg
        by_cases hf : (find_message st.m_input_buff).found = true
        · have hfmE := find_message_ext st.m_input_buff b (Or.inl hf)
          have h1 := process_found_msg st hmodeb hgb hf
          have hE := process_found_msg { st with m_input_buff := st.m_input_buff ++ b }
            (by rw [upd_mode]; exact hmodeb)
            (by rw [upd_buff, hfmE]; exact hgb)
            (by rw [upd_buff, hfmE]; exact hf)
          rw [upd_buff, hfmE, consumeMessage_append st b hf] at hE
          have hlen' : (consumeMessage st).m_input_buff.length ≤ n :=
            consumeMessage_len_le st n hf hn
          obtain ⟨ih1, ih2⟩ := ih (consumeMessage st) b hlen'
          have hps1 : (process st).1 = (process (consumeMessage st)).1 := by rw [h1]
          have hps2 : dispatches (process st).2 =
              Event.msg (find_message st.m_input_buff).prefix_c
                  (find_message st.m_input_buff).signature
                  (find_message st.m_input_buff).encoded ::
                dispatches (process (consumeMessage st)).2 := by
            rw [h1]
            rfl
          constructor
          · rw [hE]
            simp only []
            rw [ih1, hps1]
          · rw [hE]
            simp only []
            rw [dispatches_cons_msg, ih2, hps2, hps1, List.cons_append]
        · have hfb : (find_message st.m_input_buff).found = false := by simpa using hf
          have h1 := process_stuck_msg st hmodeb hgb hfb
          have hps1 : (process st).1 = st := by rw [h1]
          have hps2 : dispatches (process st).2 = [] := by rw [h1]; rfl
          exact ⟨by rw [hps1], by rw [hps2, List.nil_append, hps1]⟩

theorem upd_buff_nil (s : ProtocolState) :
    ({ s with m_input_buff := s.m_input_buff ++ [] } : ProtocolState) = s := by
  cases s
  simp

theorem input_append (st : ProtocolState) (a b : List Nat) :
    (input st (a ++ b)).1 = (input (input st a).1 b).1 ∧
    dispatches (input st (a ++ b)).2 =
      dispatches (input st a).2 ++ dispatches (input (input st a).1 b).2 := by
  unfold input
  have hrec : ({ st with m_input_buff := st.m_input_buff ++ (a ++ b) } : ProtocolState) =
      { ({ st with m_input_buff := st.m_input_buff ++ a } : ProtocolState) with
          m_input_buff :=
            ({ st with m_input_buff := st.m_input_buff ++ a } :
              ProtocolState).m_input_buff ++ b } := by
    cases st
    simp
  rw [hrec]
  exact process_append
    ({ st with m_input_buff := st.m_input_buff ++ a } : ProtocolState).m_input_buff.length
    _ b le_rfl

theorem process_fix (st : ProtocolState) :
    (process (process st).1).1 = (process st).1 ∧
    dispatches (process (process st).1).2 = [] := by
  have h := process_append st.m_input_buff.length st [] le_rfl
  rw [upd_buff_nil, upd_buff_nil] at h
  obtain ⟨h1, h2⟩ := h
  refine ⟨h1.symm, ?_⟩
  have hlen := congrArg List.length h2
  rw [List.length_append] at hlen
  have hzero : (dispatches (process (process st).1).2).length = 0 := by omega
  exact List.length_eq_zero.mp hzero

theorem runInputs_join (parts : List (List Nat)) :
    ∀ st : ProtocolState, (process st).1 = st → dispatches (process st).2 = [] →
      (runInputs st parts).1 = (input st parts.flatten).1 ∧
      dispatches (runInputs st parts).2 = dispatches (input st parts.flatten).2 := by
  induction parts with
  | nil =>
    intro st hfix hdisp
    rw [runInputs]
    unfold input
    rw [show List.flatten ([] : List (List Nat)) = [] from rfl, upd_buff_nil]
    exact ⟨hfix.symm, by rw [hdisp]; rfl⟩
  | cons p ps ih =>
    intro st hfix hdisp
    have hIA := input_append st p ps.flatten
    have hfix' := process_fix { st with m_input_buff := st.m_input_buff ++ p }
    obtain ⟨ihs, ihd⟩ := ih (input st p).1 hfix'.1 hfix'.2
    have hjoin : List.flatten (p :: ps) = p ++ ps.flatten := by simp
    rw [runInputs, hjoin]
    constructor
    · simp only []
      rw [ihs]
      exact hIA.1.symm
    · simp only []
      rw [dispatches_append, ihd, hIA.2]

/-- C1: fragmentation invariance — for every byte stream and every way of
splitting it into consecutive pieces fed through successive `input()` calls,
the sequence of `handle_message` / `handle_payload` / `handle_payload_end`
invocations (with their arguments) equals the sequence produced by feeding
the whole stream in a single `input()` call. -/
theorem fragmentation_invariance (parts : List (List Nat)) :
    dispatches (runInputs initialState parts).2 =
      dispatches (input initialState parts.flatten).2 := by
  have hinit : process initialState = (initialState, []) :=
    process_eq_processN 0 initialState (Nat.le_refl 0)
  exact (runInputs_join parts initialState (by rw [hinit]) (by rw [hinit]; rfl)).2

theorem process_mode (n : Nat) :
    ∀ st : ProtocolState, st.m_input_buff.length ≤ n →
      (process st).1.m_read_payload = (process st).2.foldl modeStep st.m_read_payload := by
  induction n with
  | zero =>
    intro st hn
    have hb : st.m_input_buff = [] := List.length_eq_zero.mp (Nat.le_zero.mp hn)
    have h1 : process st = (st, []) := by
      unfold process
      exact processN_nil _ st hb
    rw [h1]
    rfl
  | succ n ih =>
    intro st hn
    by_cases hmode : st.m_read_payload = true
    · by_cases hg : (find_payload st.m_input_buff).garbage = true
      · rw [process_garb_pl st hmode hg]
        rfl
      · have hgb : (find_payload st.m_input_buff).garbage = false := by simpa using hg
        by_cases hf : (find_payload st.m_input_buff).found = true
        · by_cases hz : (find_payload st.m_input_buff).data_sz = 0
          · rw [process_sent_pl st hmode hgb hf hz]
            simp only [List.foldl_cons]
            exact ih (consumeSentinel st) (consumeSentinel_len_le st n hf hn)
          · rw [process_data_pl st hmode hgb hf hz]
            simp only [List.foldl_cons]
            exact ih (consumeData st) (consumeData_len_le st n hf hn)
        · have hfb : (find_payload st.m_input_buff).found = false := by simpa using hf
          rw [process_stuck_pl st hmode hgb hfb]
          rfl
    · have hmodeb : st.m_read_payload = false := by simpa using hmode
      by_cases hg : (find_message st.m_input_buff).garbage = true
      · rw [process_garb_msg st hmodeb hg]
        rfl
      · have hgb : (find_message st.m_input_buff).garbage = false := by simpa using hg
        by_cases hf : (find_message st.m_input_buff).found = true
        · rw [process_found_msg st hmodeb hgb hf]
          simp only [List.foldl_cons]
          exact ih (consumeMessage st) (consumeMessage_len_le st n hf hn)
        · have hfb : (find_message st.m_input_buff).found = false := by simpa using hf
          rw [process_stuck_msg st hmodeb hgb hfb]
          rfl

theorem input_mode (st : ProtocolState) (d : List Nat) :
    (input st d).1.m_read_payload = (input st d).2.foldl modeStep st.m_read_payload := by
  unfold input
  exact process_mode
    ({ st with m_input_buff := st.m_input_buff ++ d } : ProtocolState).m_input_buff.length
    _ le_rfl

theorem runInputs_mode (parts : List (List Nat)) :
    ∀ st : ProtocolState, (runInputs st parts).1.m_read_payload =
      (runInputs st parts).2.foldl modeStep st.m_read_payload := by
  induction parts with
  | nil => intro st; rfl
  | cons p ps ih =>
    intro st
    rw [runInputs]
    simp only []
    rw [List.foldl_append, ih (input st p).1, input_mode st p]

/-- C4: in every state of a `ProtocolState` reachable from construction by
`input()` calls, the mode is `ReadingPayload` (`m_read_payload = true`) if
and only if a message with a payload-bearing prefix has been dispatched to
`handle_message` and the payload-end sentinel for it has not yet been seen
(folded over the handler-invocation history by `modeAfter`); the initial
state after construction is `ReadingMessage`. -/
theorem mode_invariant (parts : List (List Nat)) :
    (runInputs initialState parts).1.m_read_payload =
      modeAfter (runInputs initialState parts).2 ∧
    initialState.m_read_payload = false :=
  ⟨runInputs_mode parts initialState, rfl⟩

theorem find_message_too_big (buff : List Nat) (h : declares_too_big buff) :
    find_message buff = { garbage := true, too_big := true } := by
  rcases h with ⟨a, b, c, d, rest, hbuff, hbig⟩ |
    ⟨p, a, b, c, d, sig, e, f, g, h4, rest, hp, hbuff, hsiglen, hsigmax, hbig⟩
  · subst hbuff
    rw [find_message, if_neg (by simp [has_signature]), if_pos rfl,
      show readLen4 (a :: b :: c :: d :: rest) = some (be4 a b c d, rest) from rfl]
    simp only []
    rw [if_pos hbig]
  · subst hbuff
    rw [find_message, if_pos (by rcases hp with hp | hp <;> simp [hp, has_signature]),
      show readLen4 (a :: b :: c :: d :: (sig ++ e :: f :: g :: h4 :: rest)) =
        some (be4 a b c d, sig ++ e :: f :: g :: h4 :: rest) from rfl]
    simp only []
    rw [if_neg (by omega), if_neg (by simp only [List.length_append, List.length_cons]; omega),
      ← hsiglen, List.drop_left,
      show readLen4 (e :: f :: g :: h4 :: rest) = some (be4 e f g h4, rest) from rfl]
    simp only []
    rw [if_pos hbig]

/-- C5: an input buffer whose message frame declares a body length exceeding
`s_msg_size_max` makes `find_message` report `too_big = true` and
`garbage = true` (and `found = false`), and processing that buffer through
`input()` never invokes `handle_message` for that frame. -/
theorem msg_too_big_rejected (buff : List Nat) (h : declares_too_big buff) :
    (find_message buff).too_big = true ∧ (find_message buff).garbage = true ∧
    (find_message buff).found = false ∧
    (input initialState buff).2.filter Event.isMsg = [] := by
  have hfm := find_message_too_big buff h
  refine ⟨by rw [hfm], by rw [hfm], by rw [hfm], ?_⟩
  unfold input
  have hrec : ({ initialState with m_input_buff := initialState.m_input_buff ++ buff } :
      ProtocolState) = { initialState with m_input_buff := buff } := by
    simp [initialState]
  rw [hrec]
  have hproc := process_garb_msg { initialState with m_input_buff := buff } rfl
    (by rw [upd_buff, hfm])
  rw [hproc]
  rfl

theorem msg_too_big_rejected_witness :
    declares_too_big [33, 1, 0, 0, 1] ∧
    ((find_message [33, 1, 0, 0, 1]).too_big = true ∧
      (find_message [33, 1, 0, 0, 1]).garbage = true ∧
      (find_message [33, 1, 0, 0, 1]).found = false ∧
      (input initialState [33, 1, 0, 0, 1]).2.filter Event.isMsg = []) :=
  ⟨Or.inl ⟨1, 0, 0, 1, [], rfl, by decide⟩,
    msg_too_big_rejected [33, 1, 0, 0, 1] (Or.inl ⟨1, 0, 0, 1, [], rfl, by decide⟩)⟩

theorem process_out (n : Nat) :
    ∀ st : ProtocolState, st.m_input_buff.length ≤ n →
      (process st).1.m_output_buff = st.m_output_buff ∧
      (process st).1.m_write_in_progress = st.m_write_in_progress := by
  induction n with
  | zero =>
    intro st hn
    have hb : st.m_input_buff = [] := List.length_eq_zero.mp (Nat.le_zero.mp hn)
    have h1 : process st = (st, []) := by
      unfold process
      exact processN_nil _ st hb
    rw [h1]
    exact ⟨rfl, rfl⟩
  | succ n ih =>
    intro st hn
    by_cases hmode : st.m_read_payload = true
    · by_cases hg : (find_payload st.m_input_buff).garbage = true
      · rw [process_garb_pl st hmode hg]
        exact ⟨rfl, rfl⟩
      · have hgb : (find_payload st.m_input_buff).garbage = false := by simpa using hg
        by_cases hf : (find_payload st.m_input_buff).found = true
        · by_cases hz : (find_payload st.m_input_buff).data_sz = 0
          · rw [process_sent_pl st hmode hgb hf hz]
            exact ih (consumeSentinel st) (consumeSentinel_len_le st n hf hn)
          · rw [process_data_pl st hmode hgb hf hz]
            exact ih (consumeData st) (consumeData_len_le st n hf hn)
        · have hfb : (find_payload st.m_input_buff).found = false := by simpa using hf
          rw [process_stuck_pl st hmode hgb hfb]
          exact ⟨rfl, rfl⟩
    · have hmodeb : st.m_read_payload = false := by simpa using hmode
      by_cases hg : (find_message st.m_input_buff).garbage = true
      · rw [process_garb_msg st hmodeb hg]
        exact ⟨rfl, rfl⟩
      · have hgb : (find_message st.m_input_buff).garbage = false := by simpa using hg
        by_cases hf : (find_message st.m_input_buff).found = true
        · rw [process_found_msg st hmodeb hgb hf]
          exact ih (consumeMessage st) (consumeMessage_len_le st n hf hn)
        · have hfb : (find_message st.m_input_buff).found = false := by simpa using hf
          rw [process_stuck_msg st hmodeb hgb hfb]
          exact ⟨rfl, rfl⟩

theorem input_out (st : ProtocolState) (d : List Nat) :
    (input st d).1.m_output_buff = st.m_output_buff ∧
    (input st d).1.m_write_in_progress = st.m_write_in_progress := by
  unfold input
  exact process_out
    ({ st with m_input_buff := st.m_input_buff ++ d } : ProtocolState).m_input_buff.length
    _ le_rfl

theorem altCheck_append (t1 : List OutEvent) :
    ∀ (t2 : List OutEvent) (w : Bool), altCheck (t1 ++ t2) w =
      match altCheck t1 w with
      | some w' => altCheck t2 w'
      | none => none := by
  induction t1 with
  | nil => intro t2 w; rfl
  | cons e t ih =>
    intro t2 w
    cases e <;> cases w <;> simp [altCheck, ih]

theorem writesOf_append (t1 t2 : List OutEvent) :
    writesOf (t1 ++ t2) = writesOf t1 ++ writesOf t2 := by
  induction t1 with
  | nil => rfl
  | cons e t ih => cases e <;> simp [writesOf, ih]

theorem runOut_cons_general (rest : List OutAct)
    (ih : ∀ s : ProtocolState, (s.m_write_in_progress = true → s.m_output_buff ≠ []) →
      ((runOut s rest).1.m_write_in_progress = true → (runOut s rest).1.m_output_buff ≠ []) ∧
      altCheck (runOut s rest).2 s.m_write_in_progress =
        some (runOut s rest).1.m_write_in_progress ∧
      writesOf (runOut s rest).2 ++ pendingOf (runOut s rest).1 =
        pendingOf s ++ sendsOf rest)
    (a : OutAct) (st : ProtocolState)
    (h1 : (outStep st a).1.m_write_in_progress = true → (outStep st a).1.m_output_buff ≠ [])
    (h2 : altCheck (outStep st a).2 st.m_write_in_progress =
      some (outStep st a).1.m_write_in_progress)
    (h3 : writesOf (outStep st a).2 ++ pendingOf (outStep st a).1 =
      pendingOf st ++ sendsOf [a]) :
    ((runOut st (a :: rest)).1.m_write_in_progress = true →
      (runOut st (a :: rest)).1.m_output_buff ≠ []) ∧
    altCheck (runOut st (a :: rest)).2 st.m_write_in_progress =
      some (runOut st (a :: rest)).1.m_write_in_progress ∧
    writesOf (runOut st (a :: rest)).2 ++ pendingOf (runOut st (a :: rest)).1 =
      pendingOf st ++ sendsOf (a :: rest) := by
  rw [runOut]
  simp only []
  obtain ⟨j1, j2, j3⟩ := ih (outStep st a).1 h1
  refine ⟨j1, ?_, ?_⟩
  · rw [altCheck_append, h2]
    exact j2
  · rw [writesOf_append, List.append_assoc, j3, ← List.append_assoc, h3, List.append_assoc]
    congr 1
    cases a <;> rfl

theorem runOut_inv (acts : List OutAct) :
    ∀ st : ProtocolState, (st.m_write_in_progress = true → st.m_output_buff ≠ []) →
      ((runOut st acts).1.m_write_in_progress = true → (runOut st acts).1.m_output_buff ≠ []) ∧
      altCheck (runOut st acts).2 st.m_write_in_progress =
        some (runOut st acts).1.m_write_in_progress ∧
      writesOf (runOut st acts).2 ++ pendingOf (runOut st acts).1 =
        pendingOf st ++ sendsOf acts := by
  induction acts with
  | nil =>
    intro st hinv
    refine ⟨hinv, rfl, ?_⟩
    simp [runOut, writesOf, sendsOf]
  | cons a rest ih =>
    intro st hinv
    cases a with
    | inp d =>
      have hout := input_out st d
      refine runOut_cons_general rest ih _ st ?_ ?_ ?_
      · intro hw
        show (input st d).1.m_output_buff ≠ []
        rw [hout.1]
        apply hinv
        rw [← hout.2]
        exact hw
      · show altCheck [] st.m_write_in_progress = some (input st d).1.m_write_in_progress
        rw [hout.2]
        rfl
      · show writesOf [] ++ pendingOf (input st d).1 =
          pendingOf st ++ sendsOf [OutAct.inp d]
        have hpend : pendingOf (input st d).1 = pendingOf st := by
          unfold pendingOf
          rw [hout.1, hout.2]
        rw [hpend]
        simp [writesOf, sendsOf]
    | send_msg m =>
      refine runOut_cons_general rest ih _ st ?_ ?_ ?_
      · intro _
        show (st.send_message m).m_output_buff ≠ []
        simp [ProtocolState.send_message]
      · rfl
      · show writesOf [] ++ pendingOf (st.send_message m) =
          pendingOf st ++ sendsOf [OutAct.send_msg m]
        by_cases hw : st.m_write_in_progress = true
        · obtain ⟨q0, qs, hq⟩ := List.exists_cons_of_ne_nil (hinv hw)
          simp [pendingOf, ProtocolState.send_message, hw, hq, writesOf, sendsOf]
        · simp [pendingOf, ProtocolState.send_message, hw, writesOf, sendsOf]
    | send_chunk d =>
      refine runOut_cons_general rest ih _ st ?_ ?_ ?_
      · intro _
        show (st.send_payload_chunk d).m_output_buff ≠ []
        simp [ProtocolState.send_payload_chunk]
      · rfl
      · show writesOf [] ++ pendingOf (st.send_payload_chunk d) =
          pendingOf st ++ sendsOf [OutAct.send_chunk d]
        by_cases hw : st.m_write_in_progress = true
        · obtain ⟨q0, qs, hq⟩ := List.exists_cons_of_ne_nil (hinv hw)
          simp [pendingOf, ProtocolState.send_payload_chunk, hw, hq, writesOf, sendsOf]
        · simp [pendingOf, ProtocolState.send_payload_chunk, hw, writesOf, sendsOf]
    | write_next =>
      cases hq : st.m_output_buff with
      | nil =>
        refine runOut_cons_general rest ih _ st ?_ ?_ ?_
        · have hstep : outStep st OutAct.write_next = (st, [OutEvent.empty_buff]) := by
            simp [outStep, write_next_buff, hq]
          rw [hstep]
          intro hw
          exact absurd hq (hinv hw)
        · simp [outStep, write_next_buff, hq, altCheck]
        · simp [outStep, write_next_buff, hq, pendingOf, writesOf, sendsOf]
      | cons q0 qs =>
        by_cases hw : st.m_write_in_progress = true
        · refine runOut_cons_general rest ih _ st ?_ ?_ ?_
          · have hstep : outStep st OutAct.write_next = (st, []) := by
              simp [outStep, write_next_buff, hq, hw]
            rw [hstep]
            exact hinv
          · simp [outStep, write_next_buff, hq, hw, altCheck]
          · simp [outStep, write_next_buff, hq, hw, pendingOf, writesOf, sendsOf]
        · have hwf : st.m_write_in_progress = false := by simpa using hw
          refine runOut_cons_general rest ih _ st ?_ ?_ ?_
          · simp [outStep, write_next_buff, hq, hwf]
          · simp [outStep, write_next_buff, hq, hwf, altCheck]
          · simp [outStep, write_next_buff, hq, hwf, pendingOf, writesOf, sendsOf]
    | finished =>
      by_cases hw : st.m_write_in_progress = true
      · obtain ⟨q0, qs, hq⟩ := List.exists_cons_of_ne_nil (hinv hw)
        cases qs with
        | nil =>
          refine runOut_cons_general rest ih _ st ?_ ?_ ?_
          · simp [outStep, on_write_finished, write_next_buff, hq, hw]
          · simp [outStep, on_write_finished, write_next_buff, hq, hw, altCheck]
          · simp [outStep, on_write_finished, write_next_buff, hq, hw, pendingOf, writesOf,
              sendsOf]
        | cons q1 rest2 =>
          refine runOut_cons_general rest ih _ st ?_ ?_ ?_
          · simp [outStep, on_write_finished, write_next_buff, hq, hw]
          · simp [outStep, on_write_finished, write_next_buff, hq, hw, altCheck]
          · simp [outStep, on_write_finished, write_next_buff, hq, hw, pendingOf, writesOf,
              sendsOf]
      · have hwf : st.m_write_in_progress = false := by simpa using hw
        refine runOut_cons_general rest ih _ st ?_ ?_ ?_
        · have hstep : outStep st OutAct.finished = (st, []) := by
            simp [outStep, on_write_finished, hwf]
          rw [hstep]
          exact hinv
        · simp [outStep, on_write_finished, hwf, altCheck]
        · simp [outStep, on_write_finished, hwf, pendingOf, writesOf, sendsOf]

/-- C6: in every state of a `ProtocolState` reachable from construction by
any sequence of public operations, at most one output buffer is in flight —
the trace of write-callback invocations and accepted `on_write_finished`
confirmations alternates strictly, so the write callback is never invoked
again before the matching `on_write_finished` — and the transport receives
the enqueued buffers in exactly the order `send_message` /
`send_payload_chunk` enqueued them (the written buffers form a prefix of the
enqueued buffers). -/
theorem output_write_queue_invariant (acts : List OutAct) :
    altCheck (runOut initialState acts).2 false =
      some (runOut initialState acts).1.m_write_in_progress ∧
    ∃ t, writesOf (runOut initialState acts).2 ++ t = sendsOf acts := by
  have h := runOut_inv acts initialState (by intro hw; simp [initialState] at hw)
  obtain ⟨_, h2, h3⟩ := h
  refine ⟨h2, ⟨pendingOf (runOut initialState acts).1, ?_⟩⟩
  rw [h3]
  rfl
